import Mathlib

/-!
Verification of the ChessBrain search engine (`engine.py`) and position
evaluator (`evaluator.py`).

The Board Authority (the `chess` library) is external to the repository:
positions are modelled as finite game trees whose nodes carry the queries
the engine actually makes (`turn`, `is_game_over`, `is_check`, the static
evaluation of the position, and the legal moves together with the data the
move-ordering heuristic reads).  Scores are modelled by `XInt`, integers
extended with the two IEEE infinities `float('-inf')` / `float('inf')`
that the engine uses as sentinels.  The mutable `board` that the engine
pushes to and pops from is modelled by explicit state passing
(`Board`, a current node plus the stack of not-yet-undone positions).
-/

/-- Scores as used by the search: integers extended with `float('-inf')` and
`float('inf')`.  Every value the evaluator produces is a plain integer; the
infinities appear only as search sentinels, exactly as in the Python code. -/
inductive XInt where
  | neginf
  | fin (n : Int)
  | posinf
deriving DecidableEq, Repr

namespace XInt

/-- Negation, matching IEEE negation on the two infinities. -/
def negx : XInt → XInt
  | neginf => posinf
  | fin n => fin (-n)
  | posinf => neginf

instance : Neg XInt := ⟨negx⟩

/-- The order on scores: `-inf` below every integer, `inf` above. -/
def ble : XInt → XInt → Bool
  | neginf, _ => true
  | fin _, neginf => false
  | fin a, fin b => a ≤ b
  | fin _, posinf => true
  | posinf, posinf => true
  | posinf, _ => false

instance : LE XInt := ⟨fun a b => ble a b = true⟩

instance decLE : ∀ a b : XInt, Decidable (a ≤ b) := fun a b => decEq (ble a b) true

theorem le_def (a b : XInt) : a ≤ b ↔ ble a b = true := Iff.rfl

instance : LinearOrder XInt where
  le_refl a := by cases a <;> simp [le_def, ble]
  le_trans a b c := by
    cases a <;> cases b <;> cases c <;> simp [le_def, ble] <;> omega
  le_antisymm a b := by
    cases a <;> cases b <;> simp [le_def, ble] <;> omega
  le_total a b := by
    cases a <;> cases b <;> simp [le_def, ble] <;> omega
  decidableLE := decLE

theorem negx_def (a : XInt) : -a = negx a := rfl

@[simp] theorem neg_neginf : -neginf = posinf := rfl
@[simp] theorem neg_posinf : -posinf = neginf := rfl
@[simp] theorem neg_fin (n : Int) : -(fin n) = fin (-n) := rfl

@[simp] theorem negx_negx (a : XInt) : - -a = a := by
  cases a <;> simp [negx_def, negx]

@[simp] theorem negx_le_iff {a b : XInt} : -a ≤ -b ↔ b ≤ a := by
  cases a <;> cases b <;> simp [negx_def, negx, le_def, ble] <;> omega

@[simp] theorem negx_lt_iff {a b : XInt} : -a < -b ↔ b < a := by
  constructor <;>
    · intro h
      rw [lt_iff_le_not_le] at h ⊢
      simpa [negx_le_iff, and_comm] using h

theorem negx_max (a b : XInt) : -(max a b) = min (-a) (-b) := by
  rcases le_total a b with h | h
  · rw [max_eq_right h, min_eq_right (negx_le_iff.2 h)]
  · rw [max_eq_left h, min_eq_left (negx_le_iff.2 h)]

@[simp] theorem neginf_le (a : XInt) : neginf ≤ a := by
  cases a <;> simp [le_def, ble]

@[simp] theorem le_posinf (a : XInt) : a ≤ posinf := by
  cases a <;> simp [le_def, ble]

@[simp] theorem not_posinf_le_fin (n : Int) : ¬ (posinf ≤ fin n) := by
  simp [le_def, ble]

@[simp] theorem fin_le_fin_iff {a b : Int} : fin a ≤ fin b ↔ a ≤ b := by
  simp [le_def, ble]

@[simp] theorem fin_lt_fin_iff {a b : Int} : fin a < fin b ↔ a < b := by
  constructor <;>
    · intro h
      rw [lt_iff_le_not_le] at h ⊢
      simp only [fin_le_fin_iff] at *
      omega

@[simp] theorem neginf_lt_fin (n : Int) : neginf < fin n := by
  rw [lt_iff_le_not_le]; simp [le_def, ble]

@[simp] theorem neginf_lt_posinf : neginf < posinf := by
  rw [lt_iff_le_not_le]; simp [le_def, ble]

@[simp] theorem fin_lt_posinf (n : Int) : fin n < posinf := by
  rw [lt_iff_le_not_le]; simp [le_def, ble]

/-- Multiplication of a score by an integer, as the engine does with its
`color_multiplier` (always `1` or `-1`, which is why only the sign of the
multiplier matters; `float('inf') * 0` would be NaN in Python, and the
engine never multiplies an infinity by `0`, so the `fin 0` result chosen
for that case is never exercised by the definitions below). -/
def mulInt : XInt → Int → XInt
  | fin n, c => fin (n * c)
  | neginf, c => if 0 < c then neginf else if c < 0 then posinf else fin 0
  | posinf, c => if 0 < c then posinf else if c < 0 then neginf else fin 0

@[simp] theorem mulInt_one (a : XInt) : mulInt a 1 = a := by
  cases a <;> simp [mulInt]

@[simp] theorem mulInt_negOne (a : XInt) : mulInt a (-1) = -a := by
  cases a <;> simp [mulInt] <;> rfl

/-- Finite scores: everything except the two sentinels. -/
def isFin : XInt → Prop
  | fin _ => True
  | _ => False

@[simp] theorem isFin_fin (n : Int) : isFin (fin n) := trivial
@[simp] theorem not_isFin_neginf : ¬ isFin neginf := not_false
@[simp] theorem not_isFin_posinf : ¬ isFin posinf := not_false

theorem isFin_iff {a : XInt} : isFin a ↔ ∃ n, a = fin n := by
  cases a <;> simp [isFin]

theorem isFin_max {a b : XInt} (ha : isFin a) (hb : isFin b) : isFin (max a b) := by
  rcases le_total a b with h | h
  · rwa [max_eq_right h]
  · rwa [max_eq_left h]

theorem isFin_neg {a : XInt} (ha : isFin a) : isFin (-a) := by
  cases a <;> simp_all

theorem neginf_lt_of_isFin {a : XInt} (ha : isFin a) : neginf < a := by
  cases a <;> simp_all

theorem lt_posinf_of_isFin {a : XInt} (ha : isFin a) : a < posinf := by
  cases a <;> simp_all

end XInt

/-- The six chess piece kinds, as in the `chess` library. -/
inductive PieceKind where
  | pawn | knight | bishop | rook | queen | king
deriving DecidableEq, Repr

/-- `PositionEvaluator.PIECE_VALUES` from `evaluator.py`. -/
def PIECE_VALUES : PieceKind → Int
  | .pawn => 100
  | .knight => 320
  | .bishop => 330
  | .rook => 500
  | .queen => 900
  | .king => 20000

/-- The data the move-ordering heuristic reads off a legal move through the
Board Authority: `board.is_capture(move)`, the piece kinds returned by
`board.piece_at(move.to_square)` / `board.piece_at(move.from_square)`
(absent when the square is empty — for an en-passant capture the target
square holds no piece), and `move.promotion`. -/
structure MoveData where
  isCapture : Bool
  capturedPiece : Option PieceKind
  movingPiece : Option PieceKind
  promotion : Option PieceKind
deriving DecidableEq, Repr

/-- A chess position as the engine observes it through the Board Authority:
the queries `board.turn` (`true` = White), `board.is_game_over()`,
`board.is_check()`, the static evaluation `evaluate_position(board)` of
this position (the evaluator is verified separately over a concrete board
model below), and the list `board.legal_moves` paired with the position
each move leads to.  Chess games are finite (the seventy-five-move and
fivefold-repetition rules make `is_game_over` true eventually), so the
unfolding of a position is a finitely-branching finite tree. -/
inductive GTree where
  | node (ev : Int) (turn : Bool) (gameOver : Bool) (isCheck : Bool)
      (children : List (MoveData × GTree))

namespace GTree

def ev : GTree → Int
  | node e _ _ _ _ => e

def turn : GTree → Bool
  | node _ t _ _ _ => t

def gameOver : GTree → Bool
  | node _ _ g _ _ => g

def isCheck : GTree → Bool
  | node _ _ _ c _ => c

def children : GTree → List (MoveData × GTree)
  | node _ _ _ _ ch => ch

@[simp] theorem ev_node (e : Int) (t g c : Bool) (ch : List (MoveData × GTree)) :
    (node e t g c ch).ev = e := rfl
@[simp] theorem turn_node (e : Int) (t g c : Bool) (ch : List (MoveData × GTree)) :
    (node e t g c ch).turn = t := rfl
@[simp] theorem gameOver_node (e : Int) (t g c : Bool) (ch : List (MoveData × GTree)) :
    (node e t g c ch).gameOver = g := rfl
@[simp] theorem isCheck_node (e : Int) (t g c : Bool) (ch : List (MoveData × GTree)) :
    (node e t g c ch).isCheck = c := rfl
@[simp] theorem children_node (e : Int) (t g c : Bool) (ch : List (MoveData × GTree)) :
    (node e t g c ch).children = ch := rfl

end GTree

/-- `list(board.legal_moves)`: the Board Authority's legal-move enumeration,
each move paired with the position it leads to. -/
def legal_moves (t : GTree) : List (MoveData × GTree) := t.children

mutual

/-- The chess well-formedness guarantee the Board Authority provides: a
position that is not game over has at least one legal move (in chess, no
legal moves means checkmate or stalemate, both of which are game over). -/
def WFb : GTree → Bool
  | .node _ _ go _ ch => (go || !ch.isEmpty) && WFl ch

/-- `WFb` for every position a move of the list leads to. -/
def WFl : List (MoveData × GTree) → Bool
  | [] => true
  | m :: rest => WFb m.2 && WFl rest

end

mutual

/-- Height of the game tree: the number of plies after which every line of
play has ended. -/
def GTree.height : GTree → Nat
  | .node _ _ _ _ ch => 1 + heightL ch

/-- Maximum height over the positions a move of the list leads to. -/
def heightL : List (MoveData × GTree) → Nat
  | [] => 0
  | m :: rest => max m.2.height (heightL rest)

end

/-- The priority score `move_priority` that `ChessEngine._order_moves`
computes for a candidate move (`engine.py`).  The `+50` check bonus reads
`board.is_check()` on the position the move leads to (the code pushes the
move, queries, and pops; the push/pop pair itself is modelled by the
stateful `move_priorityS` below). -/
def move_priority (m : MoveData × GTree) : Int :=
  let score : Int := 0
  let score := if m.1.isCapture then
      match m.1.capturedPiece, m.1.movingPiece with
      | some captured, some moving =>
          score + 10 * PIECE_VALUES captured - PIECE_VALUES moving
      | _, _ => score
    else score
  let score := match m.1.promotion with
    | some p => score + PIECE_VALUES p
    | none => score
  let score := if m.2.isCheck then score + 50 else score
  score

/-- "`a` comes no later than `b`" for the descending stable sort
`sorted(moves, key=move_priority, reverse=True)`. -/
def movePriorityGE (a b : MoveData × GTree) : Prop :=
  move_priority b ≤ move_priority a

instance : DecidableRel movePriorityGE := fun _ _ => Int.decLe _ _

instance : IsTotal (MoveData × GTree) movePriorityGE :=
  ⟨fun a b => (le_total (move_priority b) (move_priority a)).imp id id⟩

instance : IsTrans (MoveData × GTree) movePriorityGE :=
  ⟨fun _ _ _ hab hbc => le_trans hbc hab⟩

/-- `ChessEngine._order_moves`: Python's `sorted(moves, key=move_priority,
reverse=True)` is a stable sort by priority descending; `insertionSort`
with `movePriorityGE` is extensionally the same stable descending sort. -/
def order_moves (moves : List (MoveData × GTree)) : List (MoveData × GTree) :=
  moves.insertionSort movePriorityGE

theorem order_moves_perm (moves : List (MoveData × GTree)) :
    List.Perm (order_moves moves) moves :=
  List.perm_insertionSort movePriorityGE moves

theorem order_moves_sorted (moves : List (MoveData × GTree)) :
    (order_moves moves).Sorted movePriorityGE :=
  List.sorted_insertionSort movePriorityGE moves

theorem sizeOf_order_moves (moves : List (MoveData × GTree)) :
    sizeOf (order_moves moves) = sizeOf moves :=
  (order_moves_perm moves).sizeOf_eq_sizeOf

/-- Elements skipped by `orderedInsert` all compare strictly: stability of
the insertion sort, specialised to the move-priority key.  Inserting `x`
leaves the sublist of moves with any fixed priority `k = move_priority x`
intact with `x` in front. -/
theorem filter_orderedInsert_eq (x : MoveData × GTree) (k : Int)
    (hx : move_priority x = k) (l : List (MoveData × GTree)) :
    (l.orderedInsert movePriorityGE x).filter (fun m => move_priority m = k) =
      x :: l.filter (fun m => move_priority m = k) := by
  induction l with
  | nil => simp [hx]
  | cons b l ih =>
    by_cases hb : movePriorityGE x b
    · simp [List.orderedInsert, hb, hx]
    · have hbk : ¬ (move_priority b = k) := by
        simp only [movePriorityGE, not_le] at hb
        omega
      simp [List.orderedInsert, hb, List.filter_cons, hbk, ih]

theorem filter_orderedInsert_ne (x : MoveData × GTree) (k : Int)
    (hx : move_priority x ≠ k) (l : List (MoveData × GTree)) :
    (l.orderedInsert movePriorityGE x).filter (fun m => move_priority m = k) =
      l.filter (fun m => move_priority m = k) := by
  induction l with
  | nil => simp [hx]
  | cons b l ih =>
    by_cases hb : movePriorityGE x b
    · simp [List.orderedInsert, hb, List.filter_cons, hx]
    · simp [List.orderedInsert, hb, List.filter_cons, ih]

/-- Stability of `order_moves`: for every priority value, the moves having
that priority appear in the sorted output in their original order. -/
theorem order_moves_stable (moves : List (MoveData × GTree)) (k : Int) :
    (order_moves moves).filter (fun m => move_priority m = k) =
      moves.filter (fun m => move_priority m = k) := by
  induction moves with
  | nil => rfl
  | cons x l ih =>
    rw [order_moves] at ih ⊢
    rw [List.insertionSort]
    by_cases hx : move_priority x = k
    · rw [filter_orderedInsert_eq x k hx, ih, List.filter_cons, if_pos (by simpa using hx)]
    · rw [filter_orderedInsert_ne x k hx, ih, List.filter_cons, if_neg (by simpa using hx)]

/-- `color_multiplier = 1 if board.turn == chess.WHITE else -1`
(`chess.WHITE` is `True`). -/
def colorMult (turn : Bool) : Int := if turn then 1 else -1

mutual

/-- `ChessEngine._negamax` from `engine.py`, value together with the number
of `self.nodes_evaluated += 1` increments the call performs.  The base case
(`depth == 0 or board.is_game_over()`) returns
`evaluate_position(board) * color_multiplier`, a plain integer; otherwise
the ordered legal moves are searched by `negamaxLoopP`. -/
def negamaxP (t : GTree) (depth : Int) (alpha beta : XInt) : XInt × Nat :=
  match t with
  | .node ev tn go _ ch =>
    if depth = 0 ∨ go = true then
      (XInt.fin (ev * colorMult tn), 1)
    else
      let r := negamaxLoopP (order_moves ch) depth alpha beta XInt.neginf
      (r.1, r.2 + 1)
termination_by sizeOf t
decreasing_by
  simp only [sizeOf_order_moves]
  all_goals simp
  all_goals omega

/-- The `for move in legal_moves` loop of `_negamax`: push, recurse with
negated swapped bounds, pop, track `max_score`, raise `alpha`, and break
out of the loop as soon as `beta <= alpha`. -/
def negamaxLoopP (ms : List (MoveData × GTree)) (depth : Int)
    (alpha beta maxScore : XInt) : XInt × Nat :=
  match ms with
  | [] => (maxScore, 0)
  | (md, c) :: rest =>
    let r := negamaxP c (depth - 1) (-beta) (-alpha)
    let score := -r.1
    let maxScore' := max maxScore score
    let alpha' := max alpha score
    if beta ≤ alpha' then (maxScore', r.2)
    else
      let r2 := negamaxLoopP rest depth alpha' beta maxScore'
      (r2.1, r.2 + r2.2)
termination_by sizeOf ms
decreasing_by
  all_goals simp
  all_goals omega

end

/-- The `for move in legal_moves` loop of `find_best_move`: same recursion
as the negamax loop but it never breaks on `beta` (only `alpha` is raised)
and it remembers the best move (`if score > best_score`). -/
def rootLoopP (ms : List (MoveData × GTree)) (depth : Int) (alpha beta : XInt)
    (best_move : Option (MoveData × GTree)) (best_score : XInt) (nodes : Nat) :
    Option (MoveData × GTree) × XInt × Nat :=
  match ms with
  | [] => (best_move, best_score, nodes)
  | m :: rest =>
    let r := negamaxP m.2 (depth - 1) (-beta) (-alpha)
    let score := -r.1
    let best_move' := if best_score < score then some m else best_move
    let best_score' := if best_score < score then score else best_score
    rootLoopP rest depth (max alpha score) beta best_move' best_score' (nodes + r.2)

/-- `ChessEngine.find_best_move` from `engine.py` (pure value form):
returns `(best_move, best_move_score, nodes_evaluated)`.  The node counter
is reset to `0` at the start; `alpha` starts at `-inf`, `beta` at `+inf`,
`best_score` at `-inf`; the reported `best_move_score` is
`best_score * color_multiplier`. -/
def find_best_moveP (t : GTree) (depth : Int) :
    Option (MoveData × GTree) × XInt × Nat :=
  let moves := order_moves (legal_moves t)
  let color_multiplier := colorMult t.turn
  let r := rootLoopP moves depth XInt.neginf XInt.posinf none XInt.neginf 0
  (r.1, XInt.mulInt r.2.1 color_multiplier, r.2.2)

/-- "`a` sorts no later than `b`" for `analyze_position`'s
`move_scores.sort(key=lambda x: x[1], reverse=True)`: ordering of
`(move, score)` pairs by score, descending. -/
def scoreGE (a b : (MoveData × GTree) × XInt) : Prop := b.2 ≤ a.2

instance : DecidableRel scoreGE :=
  fun a b => inferInstanceAs (Decidable (b.2 ≤ a.2))

instance : IsTotal ((MoveData × GTree) × XInt) scoreGE :=
  ⟨fun a b => (le_total b.2 a.2).imp id id⟩

instance : IsTrans ((MoveData × GTree) × XInt) scoreGE :=
  ⟨fun _ _ _ hab hbc => le_trans hbc hab⟩

/-- `ChessEngine.analyze_position` from `engine.py` (pure value form):
for each legal root move (in the Board Authority's enumeration order, not
reordered) search with a full window at `self.depth - 1`, convert each
score to the White-positive convention, sort the pairs by score descending
(Python's stable `list.sort(key=..., reverse=True)`), and keep the first
`num_top_moves`. -/
def analyze_positionP (t : GTree) (engine_depth : Int) (num_top_moves : Nat) :
    List ((MoveData × GTree) × XInt) :=
  let lm := legal_moves t
  if lm.isEmpty then []
  else
    let color_multiplier := colorMult t.turn
    let move_scores := lm.map (fun m =>
      (m, XInt.mulInt (-(negamaxP m.2 (engine_depth - 1) XInt.neginf XInt.posinf).1)
            color_multiplier))
    (move_scores.insertionSort scoreGE).take num_top_moves

mutual

/-- Reference definition written from the spec's words, for the refinement
claim: the value of an *unpruned, full-window* negamax search of the same
tree — at a base node the signed static evaluation, otherwise the maximum
over legal moves of the negated value of the resulting position at
`depth - 1`.  No alpha-beta window, no move ordering, no cutoffs. -/
def spec_negamax (t : GTree) (depth : Int) : XInt :=
  match t with
  | .node ev tn go _ ch =>
    if depth = 0 ∨ go = true then XInt.fin (ev * colorMult tn)
    else spec_root_max ch (depth - 1)

/-- Maximum over a list of moves of the negated unpruned negamax value of
the position the move leads to (`-inf` for an empty list). -/
def spec_root_max (ms : List (MoveData × GTree)) (depth : Int) : XInt :=
  match ms with
  | [] => XInt.neginf
  | m :: rest => max (-spec_negamax m.2 depth) (spec_root_max rest depth)

end

/-- The mutable `chess.Board` the engine operates on, modelled by explicit
state passing: the current position plus the stack of positions whose
pushes have not been undone yet (`board.push` grows it, `board.pop`
restores the most recent entry). -/
structure Board where
  cur : GTree
  stack : List GTree

/-- `board.push(move)`: descend into the position the move leads to,
remembering the current one. -/
def Board.push (b : Board) (m : MoveData × GTree) : Board :=
  ⟨m.2, b.cur :: b.stack⟩

/-- `board.pop()`: restore the most recently pushed position.  The engine
only ever pops right after a matching push, so the stack is never empty at
a pop; popping an empty stack is modelled as a no-op. -/
def Board.pop (b : Board) : Board :=
  match b.stack with
  | [] => b
  | p :: rest => ⟨p, rest⟩

@[simp] theorem Board.pop_push (b : Board) (m : MoveData × GTree) :
    (b.push m).pop = b := rfl

/-- The key-computation of `_order_moves` with its speculative push/pop
made explicit: `board.push(move); board.is_check(); board.pop()`. -/
def move_priorityS (b : Board) (m : MoveData × GTree) : Int × Board :=
  let score : Int := 0
  let score := if m.1.isCapture then
      match m.1.capturedPiece, m.1.movingPiece with
      | some captured, some moving =>
          score + 10 * PIECE_VALUES captured - PIECE_VALUES moving
      | _, _ => score
    else score
  let score := match m.1.promotion with
    | some p => score + PIECE_VALUES p
    | none => score
  let b1 := b.push m
  let score := if b1.cur.isCheck then score + 50 else score
  let b2 := b1.pop
  (score, b2)

theorem move_priorityS_eq (b : Board) (m : MoveData × GTree) :
    move_priorityS b m = (move_priority m, b) := by
  cases b
  simp [move_priorityS, move_priority, Board.push, Board.pop]

/-- Python's `sorted(key=...)` computes the key of every element once, in
list order (decorate), before sorting: the state-threaded decoration pass. -/
def prioritiesS (b : Board) : List (MoveData × GTree) →
    List ((MoveData × GTree) × Int) × Board
  | [] => ([], b)
  | m :: rest =>
    let r := move_priorityS b m
    let r2 := prioritiesS r.2 rest
    ((m, r.1) :: r2.1, r2.2)

theorem prioritiesS_eq (b : Board) (ms : List (MoveData × GTree)) :
    prioritiesS b ms = (ms.map (fun m => (m, move_priority m)), b) := by
  induction ms generalizing b with
  | nil => rfl
  | cons m rest ih => simp [prioritiesS, move_priorityS_eq, ih]

/-- "`a` sorts no later than `b`" on decorated (move, priority) pairs:
priority descending. -/
def priorityGE (a b : (MoveData × GTree) × Int) : Prop := b.2 ≤ a.2

instance : DecidableRel priorityGE := fun a b => Int.decLe b.2 a.2

/-- `ChessEngine._order_moves` with its board mutations made explicit:
decorate each move with its priority (pushing and popping once per move),
stable-sort the decorated list by priority descending, return the moves. -/
def order_movesS (b : Board) (moves : List (MoveData × GTree)) :
    List (MoveData × GTree) × Board :=
  let r := prioritiesS b moves
  ((r.1.insertionSort priorityGE).map (·.1), r.2)

theorem orderedInsert_decorated (x : MoveData × GTree)
    (L : List ((MoveData × GTree) × Int))
    (hL : ∀ p ∈ L, p.2 = move_priority p.1) :
    ((L.orderedInsert priorityGE (x, move_priority x)).map (·.1)) =
      (L.map (·.1)).orderedInsert movePriorityGE x := by
  induction L with
  | nil => rfl
  | cons p L ih =>
    obtain ⟨y, py⟩ := p
    have hp : py = move_priority y := hL (y, py) (List.mem_cons_self _ _)
    subst hp
    simp only [List.orderedInsert, List.map_cons]
    by_cases h : move_priority y ≤ move_priority x
    · rw [if_pos (show priorityGE (x, move_priority x) (y, move_priority y) from h),
        if_pos (show movePriorityGE x y from h)]
      rfl
    · rw [if_neg (show ¬ priorityGE (x, move_priority x) (y, move_priority y) from h),
        if_neg (show ¬ movePriorityGE x y from h), List.map_cons,
        ih (fun q hq => hL q (List.mem_cons_of_mem _ hq))]

theorem order_movesS_eq (b : Board) (moves : List (MoveData × GTree)) :
    order_movesS b moves = (order_moves moves, b) := by
  rw [order_movesS, prioritiesS_eq]
  refine Prod.ext ?_ rfl
  simp only
  rw [order_moves]
  induction moves with
  | nil => rfl
  | cons x l ih =>
    rw [List.map_cons, List.insertionSort, List.insertionSort,
      orderedInsert_decorated x _ (fun p hp => by
        have := (List.mem_insertionSort priorityGE).1 hp
        obtain ⟨m, _, rfl⟩ := List.mem_map.1 this
        rfl),
      ih]

/-- `sizeOf` of the children list is strictly below the node's. -/
theorem sizeOf_children_lt (t : GTree) : sizeOf t.children < sizeOf t := by
  cases t
  simp
  all_goals omega

mutual

/-- `ChessEngine._negamax` with the board mutations made explicit: takes
the board and the current `self.nodes_evaluated`, returns the score, the
updated counter, and the board as the call leaves it. -/
def negamaxS (b : Board) (nodes : Nat) (depth : Int) (alpha beta : XInt) :
    XInt × Nat × Board :=
  let nodes := nodes + 1
  if depth = 0 ∨ b.cur.gameOver = true then
    (XInt.fin (b.cur.ev * colorMult b.cur.turn), nodes, b)
  else
    let r := order_movesS b (legal_moves b.cur)
    negamaxLoopS r.1 r.2 nodes depth alpha beta XInt.neginf
termination_by sizeOf b.cur
decreasing_by
  rw [order_movesS_eq]
  simp only [sizeOf_order_moves]
  exact sizeOf_children_lt b.cur

/-- The `for move in legal_moves` loop of `_negamax`, stateful form:
`board.push(move)`, recurse, `board.pop()`, track `max_score` and `alpha`,
break on `beta <= alpha`. -/
def negamaxLoopS (ms : List (MoveData × GTree)) (b : Board) (nodes : Nat)
    (depth : Int) (alpha beta maxScore : XInt) : XInt × Nat × Board :=
  match ms with
  | [] => (maxScore, nodes, b)
  | (md, c) :: rest =>
    let b1 := b.push (md, c)
    let r := negamaxS b1 nodes (depth - 1) (-beta) (-alpha)
    let b2 := r.2.2.pop
    let score := -r.1
    let maxScore' := max maxScore score
    let alpha' := max alpha score
    if beta ≤ alpha' then (maxScore', r.2.1, b2)
    else negamaxLoopS rest b2 r.2.1 depth alpha' beta maxScore'
termination_by sizeOf ms
decreasing_by
  · simp [Board.push]
    all_goals omega
  · simp
    all_goals omega

end

/-- The root loop of `find_best_move`, stateful form: no beta cutoff, only
`alpha` is raised; remembers the best move. -/
def rootLoopS (ms : List (MoveData × GTree)) (b : Board) (nodes : Nat)
    (depth : Int) (alpha beta : XInt) (best_move : Option (MoveData × GTree))
    (best_score : XInt) : Option (MoveData × GTree) × XInt × Nat × Board :=
  match ms with
  | [] => (best_move, best_score, nodes, b)
  | (md, c) :: rest =>
    let b1 := b.push (md, c)
    let r := negamaxS b1 nodes (depth - 1) (-beta) (-alpha)
    let b2 := r.2.2.pop
    let score := -r.1
    let best_move' := if best_score < score then some (md, c) else best_move
    let best_score' := if best_score < score then score else best_score
    rootLoopS rest b2 r.2.1 depth (max alpha score) beta best_move' best_score'

/-- `ChessEngine.find_best_move` with the board mutations made explicit.
`self.nodes_evaluated = 0` at entry: the incoming counter is discarded.
Returns `(best_move, best_move_score, nodes_evaluated, board)`. -/
def find_best_moveS (b : Board) (nodes : Nat) (depth : Int) :
    Option (MoveData × GTree) × XInt × Nat × Board :=
  let nodes0 : Nat := 0
  let r := order_movesS b (legal_moves b.cur)
  let color_multiplier := colorMult b.cur.turn
  let q := rootLoopS r.1 r.2 nodes0 depth XInt.neginf XInt.posinf none XInt.neginf
  (q.1, XInt.mulInt q.2.1 color_multiplier, q.2.2)

/-- The `for move in legal_moves` loop of `analyze_position`, stateful
form (the moves are *not* reordered there). -/
def analyzeLoopS (ms : List (MoveData × GTree)) (b : Board) (nodes : Nat)
    (child_depth : Int) (color_multiplier : Int) :
    List ((MoveData × GTree) × XInt) × Nat × Board :=
  match ms with
  | [] => ([], nodes, b)
  | (md, c) :: rest =>
    let b1 := b.push (md, c)
    let r := negamaxS b1 nodes child_depth XInt.neginf XInt.posinf
    let b2 := r.2.2.pop
    let r2 := analyzeLoopS rest b2 r.2.1 child_depth color_multiplier
    (((md, c), XInt.mulInt (-r.1) color_multiplier) :: r2.1, r2.2)

/-- `ChessEngine.analyze_position` with the board mutations made explicit.
Note it does *not* reset the node counter: it threads the incoming value.
Each root move is searched with the full window at `self.depth - 1`. -/
def analyze_positionS (b : Board) (nodes : Nat) (engine_depth : Int)
    (num_top_moves : Nat) : List ((MoveData × GTree) × XInt) × Nat × Board :=
  let lm := legal_moves b.cur
  if lm.isEmpty then ([], nodes, b)
  else
    let color_multiplier := colorMult b.cur.turn
    let r := analyzeLoopS lm b nodes (engine_depth - 1) color_multiplier
    ((r.1.insertionSort scoreGE).take num_top_moves, r.2.1, r.2.2)

theorem one_le_sizeOf_tree (t : GTree) : 1 ≤ sizeOf t := by
  cases t
  simp
  all_goals omega

theorem one_le_sizeOf_mlist (ms : List (MoveData × GTree)) : 1 ≤ sizeOf ms := by
  cases ms
  all_goals simp
  all_goals omega

/-- One-step unfolding of `negamaxP` through the field accessors. -/
theorem negamaxP_eq (t : GTree) (depth : Int) (alpha beta : XInt) :
    negamaxP t depth alpha beta =
      if depth = 0 ∨ t.gameOver = true then
        (XInt.fin (t.ev * colorMult t.turn), 1)
      else
        let r := negamaxLoopP (order_moves t.children) depth alpha beta XInt.neginf
        (r.1, r.2 + 1) := by
  cases t
  rw [negamaxP]
  rfl

/-- One-step unfolding of `negamaxS`, with the ordering pass already
reduced by `order_movesS_eq`. -/
theorem negamaxS_eq (b : Board) (nodes : Nat) (depth : Int) (alpha beta : XInt) :
    negamaxS b nodes depth alpha beta =
      if depth = 0 ∨ b.cur.gameOver = true then
        (XInt.fin (b.cur.ev * colorMult b.cur.turn), nodes + 1, b)
      else
        negamaxLoopS (order_moves (legal_moves b.cur)) b (nodes + 1) depth
          alpha beta XInt.neginf := by
  rw [negamaxS, order_movesS_eq]

/-- The stateful negamax is the pure negamax on the current position: it
returns the same score, adds the pure node count to the incoming counter,
and hands the board back exactly as it received it (every push is undone
by a matching pop on every path, including beta cutoffs). -/
theorem negamax_bridge_aux (N : Nat) :
    (∀ (b : Board) (nodes : Nat) (depth : Int) (alpha beta : XInt),
      sizeOf b.cur ≤ N →
      negamaxS b nodes depth alpha beta =
        ((negamaxP b.cur depth alpha beta).1,
          nodes + (negamaxP b.cur depth alpha beta).2, b)) ∧
    (∀ (ms : List (MoveData × GTree)) (b : Board) (nodes : Nat) (depth : Int)
      (alpha beta maxScore : XInt),
      sizeOf ms ≤ N →
      negamaxLoopS ms b nodes depth alpha beta maxScore =
        ((negamaxLoopP ms depth alpha beta maxScore).1,
          nodes + (negamaxLoopP ms depth alpha beta maxScore).2, b)) := by
  induction N with
  | zero =>
    constructor
    · intro b nodes depth alpha beta h
      have := one_le_sizeOf_tree b.cur
      omega
    · intro ms b nodes depth alpha beta maxScore h
      have := one_le_sizeOf_mlist ms
      omega
  | succ N ih =>
    obtain ⟨ihT, ihL⟩ := ih
    constructor
    · intro b nodes depth alpha beta h
      rw [negamaxS_eq, negamaxP_eq]
      by_cases hbase : depth = 0 ∨ b.cur.gameOver = true
      · simp [hbase]
      · have hsz : sizeOf (order_moves (legal_moves b.cur)) ≤ N := by
          rw [sizeOf_order_moves]
          have := sizeOf_children_lt b.cur
          simp only [legal_moves]
          omega
        rw [if_neg hbase, if_neg hbase,
          ihL (order_moves (legal_moves b.cur)) b (nodes + 1) depth alpha beta
            XInt.neginf hsz]
        simp only [legal_moves, Prod.mk.injEq, true_and, and_true]
        omega
    · intro ms b nodes depth alpha beta maxScore h
      match ms with
      | [] =>
        rw [negamaxLoopS, negamaxLoopP]
        simp
      | (md, c) :: rest =>
        have hc : sizeOf c ≤ N := by
          simp at h
          omega
        have hrest : sizeOf rest ≤ N := by
          simp at h
          omega
        have hcur : sizeOf (b.push (md, c)).cur ≤ N := by
          simpa [Board.push] using hc
        rw [negamaxLoopS, negamaxLoopP]
        rw [ihT (b.push (md, c)) nodes (depth - 1) (-beta) (-alpha) hcur]
        simp only [Board.push, Board.pop_push]
        by_cases hcut : beta ≤ max alpha (-(negamaxP c (depth - 1) (-beta) (-alpha)).1)
        · simp [Board.pop, hcut]
        · simp only [Board.pop, hcut, if_false, reduceIte]
          rw [ihL rest b _ depth _ beta _ hrest]
          simp only [Prod.mk.injEq, true_and, and_true]
          omega

/-- Headline bridge: `negamaxS` computes the pure `negamaxP` score, adds
the pure node count to the incoming counter, and returns the board
unchanged. -/
theorem negamaxS_bridge (b : Board) (nodes : Nat) (depth : Int)
    (alpha beta : XInt) :
    negamaxS b nodes depth alpha beta =
      ((negamaxP b.cur depth alpha beta).1,
        nodes + (negamaxP b.cur depth alpha beta).2, b) :=
  (negamax_bridge_aux (sizeOf b.cur)).1 b nodes depth alpha beta le_rfl

theorem rootLoopS_bridge (ms : List (MoveData × GTree)) :
    ∀ (b : Board) (nodes : Nat) (depth : Int) (alpha beta : XInt)
      (best_move : Option (MoveData × GTree)) (best_score : XInt),
    rootLoopS ms b nodes depth alpha beta best_move best_score =
      ((rootLoopP ms depth alpha beta best_move best_score nodes).1,
        (rootLoopP ms depth alpha beta best_move best_score nodes).2.1,
        (rootLoopP ms depth alpha beta best_move best_score nodes).2.2, b) := by
  induction ms with
  | nil =>
    intro b nodes depth alpha beta mv bs
    rw [rootLoopS, rootLoopP]
  | cons m rest ih =>
    intro b nodes depth alpha beta mv bs
    obtain ⟨md, c⟩ := m
    rw [rootLoopS, rootLoopP, negamaxS_bridge]
    simp only [Board.push, Board.pop_push]
    exact ih _ _ _ _ _ _ _

theorem find_best_moveS_bridge (b : Board) (nodes : Nat) (depth : Int) :
    find_best_moveS b nodes depth =
      ((find_best_moveP b.cur depth).1,
        (find_best_moveP b.cur depth).2.1,
        (find_best_moveP b.cur depth).2.2, b) := by
  rw [find_best_moveS, find_best_moveP, order_movesS_eq, rootLoopS_bridge]

/-- Total node count of `analyze_position`'s per-move full-window
searches (proof-layer abbreviation). -/
def analyzeCountP (ms : List (MoveData × GTree)) (child_depth : Int) : Nat :=
  (ms.map (fun m => (negamaxP m.2 child_depth XInt.neginf XInt.posinf).2)).sum

theorem analyzeLoopS_bridge (ms : List (MoveData × GTree)) :
    ∀ (b : Board) (nodes : Nat) (child_depth : Int) (color_multiplier : Int),
    analyzeLoopS ms b nodes child_depth color_multiplier =
      (ms.map (fun m =>
         (m, XInt.mulInt (-(negamaxP m.2 child_depth XInt.neginf XInt.posinf).1)
               color_multiplier)),
        nodes + analyzeCountP ms child_depth, b) := by
  induction ms with
  | nil =>
    intro b nodes child_depth cm
    rw [analyzeLoopS]
    simp [analyzeCountP]
  | cons m rest ih =>
    intro b nodes child_depth cm
    obtain ⟨md, c⟩ := m
    rw [analyzeLoopS, negamaxS_bridge]
    simp only [Board.push, Board.pop_push]
    rw [ih]
    simp only [List.map_cons, analyzeCountP, List.sum_cons, Prod.mk.injEq,
      true_and, and_true]
    constructor
    · omega
    · rfl

theorem analyze_positionS_bridge (b : Board) (nodes : Nat) (engine_depth : Int)
    (num_top_moves : Nat) :
    analyze_positionS b nodes engine_depth num_top_moves =
      (analyze_positionP b.cur engine_depth num_top_moves,
        nodes + analyzeCountP (legal_moves b.cur) (engine_depth - 1), b) := by
  rw [analyze_positionS, analyze_positionP]
  by_cases hlm : (legal_moves b.cur).isEmpty
  · simp [hlm, analyzeCountP, List.isEmpty_iff.1 hlm]
  · rw [if_neg hlm, if_neg hlm]
    simp only [analyzeLoopS_bridge]

/-- One-step unfolding of `spec_negamax` through the field accessors. -/
theorem spec_negamax_eq (t : GTree) (depth : Int) :
    spec_negamax t depth =
      if depth = 0 ∨ t.gameOver = true then XInt.fin (t.ev * colorMult t.turn)
      else spec_root_max t.children (depth - 1) := by
  cases t
  rw [spec_negamax]
  rfl

/-- The unpruned maximum does not depend on the enumeration order. -/
theorem spec_root_max_perm {ms1 ms2 : List (MoveData × GTree)}
    (h : List.Perm ms1 ms2) (depth : Int) :
    spec_root_max ms1 depth = spec_root_max ms2 depth := by
  induction h with
  | nil => rfl
  | cons x _ ih =>
    rw [spec_root_max, spec_root_max, ih]
  | swap x y l =>
    rw [spec_root_max, spec_root_max, spec_root_max, spec_root_max,
      max_left_comm]
  | trans _ _ ih1 ih2 => rw [ih1, ih2]

/-- Fail-soft alpha-beta correctness, the heart of the pruning claim: for a
valid window `alpha < beta`, the pruned value `g` of `negamaxP` is exact
whenever it lies strictly inside the window, an upper bound on the true
(unpruned full-window) value when it fails low, and a lower bound when it
fails high; the loop invariant carries the best score found so far
(`maxScore ≤ alpha`). -/
theorem alphabeta_aux (N : Nat) :
    (∀ (t : GTree) (depth : Int) (alpha beta : XInt), sizeOf t ≤ N →
      alpha < beta →
      ((negamaxP t depth alpha beta).1 < beta →
        spec_negamax t depth ≤ (negamaxP t depth alpha beta).1) ∧
      (alpha < (negamaxP t depth alpha beta).1 →
        (negamaxP t depth alpha beta).1 ≤ spec_negamax t depth)) ∧
    (∀ (ms : List (MoveData × GTree)) (depth : Int) (alpha beta maxScore : XInt),
      sizeOf ms ≤ N → alpha < beta → maxScore ≤ alpha →
      ((negamaxLoopP ms depth alpha beta maxScore).1 < beta →
        max maxScore (spec_root_max ms (depth - 1)) ≤
          (negamaxLoopP ms depth alpha beta maxScore).1) ∧
      (alpha < (negamaxLoopP ms depth alpha beta maxScore).1 →
        (negamaxLoopP ms depth alpha beta maxScore).1 ≤
          max maxScore (spec_root_max ms (depth - 1)))) := by
  induction N with
  | zero =>
    constructor
    · intro t depth alpha beta h
      have := one_le_sizeOf_tree t
      omega
    · intro ms depth alpha beta maxScore h
      have := one_le_sizeOf_mlist ms
      omega
  | succ N ih =>
    obtain ⟨ihT, ihL⟩ := ih
    constructor
    · -- tree level
      intro t depth alpha beta hsz hab
      rw [negamaxP_eq, spec_negamax_eq]
      by_cases hbase : depth = 0 ∨ t.gameOver = true
      · simp [hbase]
      · have hszl : sizeOf (order_moves t.children) ≤ N := by
          rw [sizeOf_order_moves]
          have := sizeOf_children_lt t
          omega
        have hperm := spec_root_max_perm (order_moves_perm t.children) (depth - 1)
        obtain ⟨h1, h2⟩ := ihL (order_moves t.children) depth alpha beta
          XInt.neginf hszl hab (XInt.neginf_le alpha)
        rw [max_eq_right (XInt.neginf_le _)] at h1 h2
        rw [if_neg hbase, if_neg hbase]
        simp only
        rw [← hperm]
        exact ⟨h1, h2⟩
    · -- loop level
      intro ms depth alpha beta maxScore hsz hab hma
      match ms with
      | [] =>
        rw [negamaxLoopP, spec_root_max,
          max_eq_left (XInt.neginf_le maxScore)]
        exact ⟨fun _ => le_refl _, fun _ => le_refl _⟩
      | (md, c) :: rest =>
        have hszc : sizeOf c ≤ N := by
          simp at hsz
          omega
        have hszr : sizeOf rest ≤ N := by
          simp at hsz
          omega
        have hnab : -beta < -alpha := XInt.negx_lt_iff.2 hab
        obtain ⟨hc1, hc2⟩ := ihT c (depth - 1) (-beta) (-alpha) hszc hnab
        -- abbreviations
        set gc := (negamaxP c (depth - 1) (-beta) (-alpha)).1 with hgc
        set vc := spec_negamax c (depth - 1) with hvc
        -- child bounds transported to the parent's orientation
        have hA : alpha < -gc → -gc ≤ -vc := by
          intro hs
          have : gc < -alpha := by
            have := XInt.negx_lt_iff.2 hs
            simpa using this
          exact XInt.negx_le_iff.2 (hc1 this)
        have hB : -gc < beta → -vc ≤ -gc := by
          intro hs
          have : -beta < gc := by
            have := XInt.negx_lt_iff.2 hs
            simpa using this
          exact XInt.negx_le_iff.2 (hc2 this)
        rw [negamaxLoopP]
        simp only
        rw [spec_root_max]
        by_cases hcut : beta ≤ max alpha (-gc)
        · -- beta cutoff: the loop breaks
          rw [if_pos hcut]
          have hs : beta ≤ -gc := by
            rcases le_max_iff.1 hcut with h | h
            · exact absurd h (not_le.2 hab)
            · exact h
          have has : alpha < -gc := lt_of_lt_of_le hab hs
          have hms : max maxScore (-gc) = -gc :=
            max_eq_right (le_of_lt (lt_of_le_of_lt hma has))
          constructor
          · intro hG
            rw [hms] at hG
            exact absurd hG (not_lt.2 hs)
          · intro _
            rw [hms]
            calc -gc ≤ -vc := hA has
              _ ≤ max (-vc) (spec_root_max rest (depth - 1)) := le_max_left _ _
              _ ≤ max maxScore (max (-vc) (spec_root_max rest (depth - 1))) :=
                  le_max_right _ _
        · -- no cutoff: continue with the raised alpha
          rw [if_neg hcut]
          have hab' : max alpha (-gc) < beta := not_le.1 hcut
          have hma' : max maxScore (-gc) ≤ max alpha (-gc) :=
            max_le_max hma (le_refl _)
          have hsb : -gc < beta := lt_of_le_of_lt (le_max_right alpha (-gc)) hab'
          have hTs : -vc ≤ -gc := hB hsb
          obtain ⟨hr1, hr2⟩ := ihL rest depth (max alpha (-gc)) beta
            (max maxScore (-gc)) hszr hab' hma'
          constructor
          · intro hG
            have h5 := hr1 hG
            calc max maxScore (max (-vc) (spec_root_max rest (depth - 1)))
                ≤ max maxScore (max (-gc) (spec_root_max rest (depth - 1))) := by
                  exact max_le_max (le_refl _) (max_le_max hTs (le_refl _))
              _ = max (max maxScore (-gc)) (spec_root_max rest (depth - 1)) :=
                  (max_assoc _ _ _).symm
              _ ≤ _ := h5
          · intro hG
            by_cases hα : max alpha (-gc) <
                (negamaxLoopP rest depth (max alpha (-gc)) beta
                  (max maxScore (-gc))).1
            · have h6 := hr2 hα
              by_cases hsa : alpha < -gc
              · have hsT : -gc ≤ -vc := hA hsa
                calc (negamaxLoopP rest depth (max alpha (-gc)) beta
                      (max maxScore (-gc))).1
                    ≤ max (max maxScore (-gc)) (spec_root_max rest (depth - 1)) := h6
                  _ ≤ max (max maxScore (-vc)) (spec_root_max rest (depth - 1)) :=
                      max_le_max (max_le_max (le_refl _) hsT) (le_refl _)
                  _ = max maxScore (max (-vc) (spec_root_max rest (depth - 1))) :=
                      max_assoc _ _ _
              · have hsa' : -gc ≤ alpha := not_lt.1 hsa
                have hxa : max maxScore (-gc) ≤ alpha := max_le hma hsa'
                rcases le_max_iff.1 h6 with h7 | h7
                · exact absurd (lt_of_lt_of_le hG h7) (not_lt.2 hxa)
                · calc (negamaxLoopP rest depth (max alpha (-gc)) beta
                        (max maxScore (-gc))).1
                      ≤ spec_root_max rest (depth - 1) := h7
                    _ ≤ max (-vc) (spec_root_max rest (depth - 1)) := le_max_right _ _
                    _ ≤ max maxScore (max (-vc) (spec_root_max rest (depth - 1))) :=
                        le_max_right _ _
            · have h8 : (negamaxLoopP rest depth (max alpha (-gc)) beta
                  (max maxScore (-gc))).1 ≤ max alpha (-gc) := not_lt.1 hα
              rcases le_max_iff.1 h8 with h9 | h9
              · exact absurd (lt_of_lt_of_le hG h9) (lt_irrefl alpha)
              · have hsa : alpha < -gc := by
                  rcases lt_or_le alpha (-gc) with h | h
                  · exact h
                  · exact absurd (lt_of_lt_of_le hG (le_trans h9 h)) (lt_irrefl alpha)
                have hsT : -gc ≤ -vc := hA hsa
                calc (negamaxLoopP rest depth (max alpha (-gc)) beta
                      (max maxScore (-gc))).1
                    ≤ -gc := h9
                  _ ≤ -vc := hsT
                  _ ≤ max (-vc) (spec_root_max rest (depth - 1)) := le_max_left _ _
                  _ ≤ max maxScore (max (-vc) (spec_root_max rest (depth - 1))) :=
                      le_max_right _ _

/-- With the full window `(-inf, +inf)` the pruned search returns exactly
the unpruned value, for every tree and every depth. -/
theorem negamaxP_full (t : GTree) (depth : Int) :
    (negamaxP t depth XInt.neginf XInt.posinf).1 = spec_negamax t depth := by
  obtain ⟨h1, h2⟩ := (alphabeta_aux (sizeOf t)).1 t depth XInt.neginf XInt.posinf
    le_rfl XInt.neginf_lt_posinf
  rcases hg : (negamaxP t depth XInt.neginf XInt.posinf).1 with _ | n | _
  · rw [hg] at h1
    have := h1 XInt.neginf_lt_posinf
    exact le_antisymm (XInt.neginf_le _) this
  · rw [hg] at h1 h2
    exact le_antisymm (h2 (XInt.neginf_lt_fin n)) (h1 (XInt.fin_lt_posinf n))
  · rw [hg] at h2
    have := h2 XInt.neginf_lt_posinf
    exact le_antisymm this (XInt.le_posinf _)

theorem WFl_iff (ms : List (MoveData × GTree)) :
    WFl ms = true ↔ ∀ p ∈ ms, WFb p.2 = true := by
  induction ms with
  | nil => simp [WFl]
  | cons m rest ih =>
    rw [WFl, Bool.and_eq_true, ih]
    constructor
    · rintro ⟨h1, h2⟩ p hp
      rcases List.mem_cons.1 hp with rfl | hp
      · exact h1
      · exact h2 p hp
    · intro h
      exact ⟨h m (List.mem_cons_self m rest), fun p hp => h p (List.mem_cons_of_mem m hp)⟩

/-- A well-formed position never evaluates to a sentinel: every negamax
call on it returns a finite score (the `-inf` initialisation is always
beaten because a non-terminal node has at least one legal move). -/
theorem negamax_fin_aux (N : Nat) :
    (∀ (t : GTree) (depth : Int) (alpha beta : XInt), sizeOf t ≤ N →
      WFb t = true → ((negamaxP t depth alpha beta).1).isFin) ∧
    (∀ (ms : List (MoveData × GTree)) (depth : Int) (alpha beta maxScore : XInt),
      sizeOf ms ≤ N → WFl ms = true →
      (maxScore.isFin ∨ (ms ≠ [] ∧ maxScore = XInt.neginf)) →
      ((negamaxLoopP ms depth alpha beta maxScore).1).isFin) := by
  induction N with
  | zero =>
    constructor
    · intro t depth alpha beta h
      have := one_le_sizeOf_tree t
      omega
    · intro ms depth alpha beta maxScore h
      have := one_le_sizeOf_mlist ms
      omega
  | succ N ih =>
    obtain ⟨ihT, ihL⟩ := ih
    constructor
    · intro t depth alpha beta hsz hwf
      rw [negamaxP_eq]
      by_cases hbase : depth = 0 ∨ t.gameOver = true
      · simp [hbase]
      · rw [if_neg hbase]
        simp only
        have hszl : sizeOf (order_moves t.children) ≤ N := by
          rw [sizeOf_order_moves]
          have := sizeOf_children_lt t
          omega
        have hbase' := hbase
        push_neg at hbase'
        have hgo : t.gameOver = false := by
          simpa using hbase'.2
        cases t with
        | node e tn go chk ch =>
          simp only [GTree.gameOver_node] at hgo
          rw [WFb, hgo, Bool.and_eq_true] at hwf
          simp only [GTree.children_node]
          have hne : ch ≠ [] := by
            intro hnil
            rw [hnil] at hwf
            simp at hwf
          have hwfl : WFl (order_moves ch) = true := by
            rw [WFl_iff]
            intro p hp
            exact (WFl_iff ch).1 hwf.2 p ((order_moves_perm ch).mem_iff.1 hp)
          have hone : order_moves ch ≠ [] := by
            intro hnil
            have hl := (order_moves_perm ch).length_eq
            rw [hnil] at hl
            simp only [List.length_nil] at hl
            exact hne (List.length_eq_zero.1 hl.symm)
          exact ihL (order_moves ch) depth alpha beta XInt.neginf
            (by simpa only [GTree.children_node] using hszl) hwfl
            (Or.inr ⟨hone, rfl⟩)
    · intro ms depth alpha beta maxScore hsz hwf hinit
      match ms with
      | [] =>
        rw [negamaxLoopP]
        rcases hinit with h | ⟨h, _⟩
        · exact h
        · exact absurd rfl h
      | (md, c) :: rest =>
        have hszc : sizeOf c ≤ N := by
          simp at hsz
          omega
        have hszr : sizeOf rest ≤ N := by
          simp at hsz
          omega
        rw [WFl, Bool.and_eq_true] at hwf
        have hgc : ((negamaxP c (depth - 1) (-beta) (-alpha)).1).isFin :=
          ihT c (depth - 1) (-beta) (-alpha) hszc hwf.1
        have hsfin : (-(negamaxP c (depth - 1) (-beta) (-alpha)).1).isFin :=
          XInt.isFin_neg hgc
        have hmax : (max maxScore (-(negamaxP c (depth - 1) (-beta) (-alpha)).1)).isFin := by
          rcases hinit with h | ⟨_, h⟩
          · exact XInt.isFin_max h hsfin
          · rw [h, max_eq_right (XInt.neginf_le _)]
            exact hsfin
        rw [negamaxLoopP]
        simp only
        by_cases hcut : beta ≤ max alpha (-(negamaxP c (depth - 1) (-beta) (-alpha)).1)
        · rw [if_pos hcut]
          exact hmax
        · rw [if_neg hcut]
          exact ihL rest depth _ beta _ hszr hwf.2 (Or.inl hmax)

/-- Every `_negamax` call increments the node counter at least once. -/
theorem negamaxP_count_pos (t : GTree) (depth : Int) (alpha beta : XInt) :
    1 ≤ (negamaxP t depth alpha beta).2 := by
  rw [negamaxP_eq]
  by_cases hbase : depth = 0 ∨ t.gameOver = true
  · simp [hbase]
  · simp [hbase]

/-- The root loop visits at least one node per legal move. -/
theorem rootLoopP_count_ge (ms : List (MoveData × GTree)) :
    ∀ (depth : Int) (alpha beta : XInt) (best_move : Option (MoveData × GTree))
      (best_score : XInt) (nodes : Nat),
    nodes + ms.length ≤ (rootLoopP ms depth alpha beta best_move best_score nodes).2.2 := by
  induction ms with
  | nil =>
    intro depth alpha beta mv bs nodes
    rw [rootLoopP]
    simp
  | cons m rest ih =>
    intro depth alpha beta mv bs nodes
    rw [rootLoopP]
    have h1 := negamaxP_count_pos m.2 (depth - 1) (-beta) (-alpha)
    have h2 := ih depth (max alpha (-(negamaxP m.2 (depth - 1) (-beta) (-alpha)).1))
      beta
      (if bs < -(negamaxP m.2 (depth - 1) (-beta) (-alpha)).1 then some m else mv)
      (if bs < -(negamaxP m.2 (depth - 1) (-beta) (-alpha)).1 then
        -(negamaxP m.2 (depth - 1) (-beta) (-alpha)).1 else bs)
      (nodes + (negamaxP m.2 (depth - 1) (-beta) (-alpha)).2)
    simp only [List.length_cons]
    omega

/-- `analyze_position` visits at least one node per legal move. -/
theorem analyzeCountP_ge (ms : List (MoveData × GTree)) (child_depth : Int) :
    ms.length ≤ analyzeCountP ms child_depth := by
  induction ms with
  | nil => simp [analyzeCountP]
  | cons m rest ih =>
    rw [analyzeCountP, List.map_cons, List.sum_cons]
    have := negamaxP_count_pos m.2 child_depth XInt.neginf XInt.posinf
    rw [analyzeCountP] at ih
    simp only [List.length_cons]
    omega

theorem XInt.neginf_lt_negx {a : XInt} (h : a ≠ XInt.posinf) :
    XInt.neginf < -a := by
  cases a
  · simp
  · simp
  · exact absurd rfl h

theorem XInt.max_ne_posinf {a b : XInt} (ha : a ≠ XInt.posinf)
    (hb : b ≠ XInt.posinf) : max a b ≠ XInt.posinf := by
  rcases le_total a b with h | h
  · rwa [max_eq_right h]
  · rwa [max_eq_left h]

theorem XInt.lt_negx_comm {a b : XInt} : a < -b ↔ b < -a := by
  rw [← XInt.negx_negx (a := a), XInt.negx_lt_iff, XInt.negx_negx]

theorem XInt.ne_posinf_of_isFin {a : XInt} (h : a.isFin) : a ≠ XInt.posinf := by
  cases a <;> simp_all

/-- The invariant of `find_best_move`'s root loop, run over well-formed
children with `beta = +inf` and `alpha` equal to the best score so far:
the final best score is the maximum of the incoming best score and the
true (unpruned) values of the remaining moves; it is never `+inf`; and the
final best move is the incoming one or one of the list's moves — one of
the list's moves whenever the score improved. -/
theorem rootLoopP_invariant (ms : List (MoveData × GTree)) :
    ∀ (depth : Int) (best_move : Option (MoveData × GTree)) (best_score : XInt)
      (nodes : Nat),
    (∀ p ∈ ms, WFb p.2 = true) →
    best_score ≠ XInt.posinf →
    ((rootLoopP ms depth best_score XInt.posinf best_move best_score nodes).2.1 =
        max best_score (spec_root_max ms (depth - 1))) ∧
    ((rootLoopP ms depth best_score XInt.posinf best_move best_score nodes).2.1 ≠
        XInt.posinf) ∧
    ((rootLoopP ms depth best_score XInt.posinf best_move best_score nodes).1 =
        best_move ∨
      ∃ p ∈ ms,
        (rootLoopP ms depth best_score XInt.posinf best_move best_score nodes).1 =
          some p) ∧
    (best_score <
        (rootLoopP ms depth best_score XInt.posinf best_move best_score nodes).2.1 →
      ∃ p ∈ ms,
        (rootLoopP ms depth best_score XInt.posinf best_move best_score nodes).1 =
          some p) := by
  induction ms with
  | nil =>
    intro depth mv bs nodes _ hbs
    rw [rootLoopP, spec_root_max, max_eq_left (XInt.neginf_le bs)]
    refine ⟨rfl, hbs, Or.inl rfl, ?_⟩
    intro h
    exact absurd h (lt_irrefl bs)
  | cons m rest ih =>
    intro depth mv bs nodes hwf hbs
    have hwfc : WFb m.2 = true := hwf m (List.mem_cons_self m rest)
    have hwfr : ∀ p ∈ rest, WFb p.2 = true :=
      fun p hp => hwf p (List.mem_cons_of_mem m hp)
    have hwin : XInt.neginf < -bs := XInt.neginf_lt_negx hbs
    -- the child call and its value
    have hgfin : ((negamaxP m.2 (depth - 1) (-XInt.posinf) (-bs)).1).isFin :=
      (negamax_fin_aux (sizeOf m.2)).1 m.2 (depth - 1) (-XInt.posinf) (-bs)
        le_rfl hwfc
    obtain ⟨hc1, hc2⟩ := (alphabeta_aux (sizeOf m.2)).1 m.2 (depth - 1)
      (-XInt.posinf) (-bs) le_rfl (by simpa using hwin)
    set gc := (negamaxP m.2 (depth - 1) (-XInt.posinf) (-bs)).1 with hgc
    set vc := spec_negamax m.2 (depth - 1) with hvc
    have hsfin : (-gc).isFin := XInt.isFin_neg hgfin
    have hTle : -vc ≤ -gc := by
      refine XInt.negx_le_iff.2 (hc2 ?_)
      simpa using XInt.neginf_lt_of_isFin hgfin
    have hseq : bs < -gc → -gc ≤ -vc := by
      intro h
      exact XInt.negx_le_iff.2 (hc1 (by rwa [← XInt.lt_negx_comm]))
    rw [rootLoopP]
    rw [spec_root_max]
    by_cases hupd : bs < -gc
    · rw [if_pos hupd, if_pos hupd, max_eq_right (le_of_lt hupd)]
      have hTeq : -gc = -vc := le_antisymm (hseq hupd) hTle
      obtain ⟨k1, k2, k3, k4⟩ := ih depth (some m) (-gc) (nodes + _) hwfr
        (XInt.ne_posinf_of_isFin hsfin)
      refine ⟨?_, k2, ?_, ?_⟩
      · rw [k1, hTeq]
        have h1' : bs ≤ -vc := hTeq ▸ le_of_lt hupd
        have hbsX : bs ≤ max (-vc) (spec_root_max rest (depth - 1)) :=
          le_trans h1' (le_max_left _ _)
        rw [max_eq_right hbsX]
      · rcases k3 with h | ⟨p, hp, h⟩
        · exact Or.inr ⟨m, List.mem_cons_self m rest, h⟩
        · exact Or.inr ⟨p, List.mem_cons_of_mem m hp, h⟩
      · intro _
        rcases k3 with h | ⟨p, hp, h⟩
        · exact ⟨m, List.mem_cons_self m rest, h⟩
        · exact ⟨p, List.mem_cons_of_mem m hp, h⟩
    · rw [if_neg hupd, if_neg hupd, max_eq_left (not_lt.1 hupd)]
      have hTbs : -vc ≤ bs := le_trans hTle (not_lt.1 hupd)
      obtain ⟨k1, k2, k3, k4⟩ := ih depth mv bs (nodes + _) hwfr hbs
      refine ⟨?_, k2, ?_, ?_⟩
      · rw [k1, ← max_assoc, max_eq_left hTbs]
      · rcases k3 with h | ⟨p, hp, h⟩
        · exact Or.inl h
        · exact Or.inr ⟨p, List.mem_cons_of_mem m hp, h⟩
      · intro hlt
        rcases k4 hlt with ⟨p, hp, h⟩
        exact ⟨p, List.mem_cons_of_mem m hp, h⟩

/-- `find_best_moveP` with all lets resolved. -/
theorem find_best_moveP_def (t : GTree) (depth : Int) :
    find_best_moveP t depth =
      ((rootLoopP (order_moves (legal_moves t)) depth XInt.neginf XInt.posinf
          none XInt.neginf 0).1,
        XInt.mulInt
          (rootLoopP (order_moves (legal_moves t)) depth XInt.neginf XInt.posinf
            none XInt.neginf 0).2.1 (colorMult t.turn),
        (rootLoopP (order_moves (legal_moves t)) depth XInt.neginf XInt.posinf
          none XInt.neginf 0).2.2) := rfl

theorem WFb_children {t : GTree} (hwf : WFb t = true) :
    ∀ p ∈ legal_moves t, WFb p.2 = true := by
  cases t with
  | node e tn go chk ch =>
    rw [WFb, Bool.and_eq_true] at hwf
    exact fun p hp => (WFl_iff ch).1 hwf.2 p hp

/-- The score reported by the root loop, over well-formed children with the
initial `-inf`/`+inf` window: exactly the unpruned maximum. -/
theorem find_best_moveP_score (t : GTree) (depth : Int) (hwf : WFb t = true) :
    (find_best_moveP t depth).2.1 =
      XInt.mulInt (spec_root_max (legal_moves t) (depth - 1)) (colorMult t.turn) := by
  rw [find_best_moveP_def]
  obtain ⟨k1, _, _, _⟩ := rootLoopP_invariant (order_moves (legal_moves t)) depth
    none XInt.neginf 0
    (fun p hp => WFb_children hwf p ((order_moves_perm (legal_moves t)).mem_iff.1 hp))
    (by simp)
  rw [k1, max_eq_right (XInt.neginf_le _),
    spec_root_max_perm (order_moves_perm (legal_moves t))]

theorem spec_negamax_isFin (t : GTree) (depth : Int) (hwf : WFb t = true) :
    (spec_negamax t depth).isFin := by
  rw [← negamaxP_full]
  exact (negamax_fin_aux (sizeOf t)).1 t depth XInt.neginf XInt.posinf le_rfl hwf

theorem le_spec_root_max {p : MoveData × GTree} {ms : List (MoveData × GTree)}
    (hp : p ∈ ms) (depth : Int) :
    -spec_negamax p.2 depth ≤ spec_root_max ms depth := by
  induction ms with
  | nil => cases hp
  | cons m rest ih =>
    rw [spec_root_max]
    rcases List.mem_cons.1 hp with rfl | hp'
    · exact le_max_left _ _
    · exact le_trans (ih hp') (le_max_right _ _)

/-- With at least one legal move and well-formed children, the root loop
always improves on the `-inf` sentinel, so a best move is returned and it
is one of the legal moves. -/
theorem find_best_moveP_some (t : GTree) (depth : Int) (hwf : WFb t = true)
    (hne : legal_moves t ≠ []) :
    ∃ p, (find_best_moveP t depth).1 = some p ∧ p ∈ legal_moves t := by
  obtain ⟨k1, _, _, k4⟩ := rootLoopP_invariant (order_moves (legal_moves t)) depth
    none XInt.neginf 0
    (fun p hp => WFb_children hwf p ((order_moves_perm (legal_moves t)).mem_iff.1 hp))
    (by simp)
  obtain ⟨m, hm⟩ := List.exists_mem_of_ne_nil (legal_moves t) hne
  have hmo : m ∈ order_moves (legal_moves t) :=
    (order_moves_perm (legal_moves t)).mem_iff.2 hm
  have hfin : (spec_negamax m.2 (depth - 1)).isFin :=
    spec_negamax_isFin m.2 (depth - 1) (WFb_children hwf m hm)
  have hlt : XInt.neginf < spec_root_max (order_moves (legal_moves t)) (depth - 1) :=
    lt_of_lt_of_le (XInt.neginf_lt_of_isFin (XInt.isFin_neg hfin))
      (le_spec_root_max hmo (depth - 1))
  have himp : XInt.neginf <
      (rootLoopP (order_moves (legal_moves t)) depth XInt.neginf XInt.posinf
        none XInt.neginf 0).2.1 := by
    rw [k1, max_eq_right (XInt.neginf_le _)]
    exact hlt
  obtain ⟨p, hp, hsome⟩ := k4 himp
  refine ⟨p, ?_, (order_moves_perm (legal_moves t)).mem_iff.1 hp⟩
  rw [find_best_moveP_def]
  exact hsome

/-- `heightL` only depends on the members of the list. -/
theorem heightL_perm {ms1 ms2 : List (MoveData × GTree)}
    (h : List.Perm ms1 ms2) : heightL ms1 = heightL ms2 := by
  induction h with
  | nil => rfl
  | cons x _ ih => rw [heightL, heightL, ih]
  | swap x y l => rw [heightL, heightL, heightL, heightL, max_left_comm]
  | trans _ _ ih1 ih2 => rw [ih1, ih2]

theorem height_le_heightL {p : MoveData × GTree} {ms : List (MoveData × GTree)}
    (hp : p ∈ ms) : p.2.height ≤ heightL ms := by
  induction ms with
  | nil => cases hp
  | cons m rest ih =>
    rw [heightL]
    rcases List.mem_cons.1 hp with rfl | hp'
    · exact le_max_left _ _
    · exact le_trans (ih hp') (le_max_right _ _)

/-- A search with a negative depth never meets the `depth == 0` base case,
so it stops only at game-over positions; the same is true of any depth at
least the height of the tree.  Both therefore compute the same thing. -/
theorem negamaxP_deep_aux (N : Nat) :
    (∀ (t : GTree) (d e : Int) (alpha beta : XInt), sizeOf t ≤ N →
      d < 0 → (t.height : Int) ≤ e →
      negamaxP t d alpha beta = negamaxP t e alpha beta) ∧
    (∀ (ms : List (MoveData × GTree)) (d e : Int) (alpha beta maxScore : XInt),
      sizeOf ms ≤ N → d < 0 → (heightL ms : Int) < e →
      negamaxLoopP ms d alpha beta maxScore = negamaxLoopP ms e alpha beta maxScore) := by
  induction N with
  | zero =>
    constructor
    · intro t d e alpha beta h
      have := one_le_sizeOf_tree t
      omega
    · intro ms d e alpha beta maxScore h
      have := one_le_sizeOf_mlist ms
      omega
  | succ N ih =>
    obtain ⟨ihT, ihL⟩ := ih
    constructor
    · intro t d e alpha beta hsz hd he
      have hh : 1 ≤ t.height := by
        cases t
        rw [GTree.height]
        omega
      have hd0 : ¬ (d = 0) := by omega
      have he0 : ¬ (e = 0) := by omega
      rw [negamaxP_eq, negamaxP_eq]
      by_cases hgo : t.gameOver = true
      · simp [hgo]
      · rw [if_neg (by simp [hd0, hgo]), if_neg (by simp [he0, hgo])]
        have hhl : (heightL (order_moves t.children) : Int) < e := by
          rw [heightL_perm (order_moves_perm t.children)]
          have : t.height = 1 + heightL t.children := by
            cases t
            rw [GTree.height]
            rfl
          omega
        have hszl : sizeOf (order_moves t.children) ≤ N := by
          rw [sizeOf_order_moves]
          have := sizeOf_children_lt t
          omega
        rw [ihL (order_moves t.children) d e alpha beta XInt.neginf hszl hd hhl]
    · intro ms d e alpha beta maxScore hsz hd he
      match ms with
      | [] => rw [negamaxLoopP, negamaxLoopP]
      | (md, c) :: rest =>
        have hszc : sizeOf c ≤ N := by
          simp at hsz
          omega
        have hszr : sizeOf rest ≤ N := by
          simp at hsz
          omega
        have hhc : (c.height : Int) ≤ e - 1 := by
          have h1 : c.height ≤ heightL ((md, c) :: rest) :=
            height_le_heightL (List.mem_cons_self (md, c) rest)
          omega
        have hhr : (heightL rest : Int) < e := by
          have h1 : heightL rest ≤ heightL ((md, c) :: rest) := by
            rw [heightL]
            exact le_max_right _ _
          omega
        rw [negamaxLoopP, negamaxLoopP,
          ihT c (d - 1) (e - 1) (-beta) (-alpha) hszc (by omega) hhc]
        by_cases hcut : beta ≤ max alpha (-(negamaxP c (e - 1) (-beta) (-alpha)).1)
        · rw [if_pos hcut, if_pos hcut]
        · rw [if_neg hcut, if_neg hcut,
            ihL rest d e _ beta _ hszr hd hhr]

/-- Depth `0` at the root behaves exactly like any depth at least the
height of the game tree: an exhaustive search bounded only by game over. -/
theorem find_best_moveP_depth0 (t : GTree) (D : Int)
    (hD : (t.height : Int) ≤ D) :
    find_best_moveP t 0 = find_best_moveP t D := by
  rw [find_best_moveP_def, find_best_moveP_def]
  have hroot : ∀ (ms : List (MoveData × GTree)),
      (∀ p ∈ ms, (p.2.height : Int) ≤ D - 1) →
      ∀ (alpha : XInt) (best_move : Option (MoveData × GTree))
        (best_score : XInt) (nodes : Nat),
      rootLoopP ms 0 alpha XInt.posinf best_move best_score nodes =
        rootLoopP ms D alpha XInt.posinf best_move best_score nodes := by
    intro ms
    induction ms with
    | nil =>
      intro _ alpha mv bs nodes
      rw [rootLoopP, rootLoopP]
    | cons m rest ih =>
      intro hms alpha mv bs nodes
      have hm := hms m (List.mem_cons_self m rest)
      have hrest := fun p hp => hms p (List.mem_cons_of_mem m hp)
      rw [rootLoopP, rootLoopP,
        (negamaxP_deep_aux (sizeOf m.2)).1 m.2 (0 - 1) (D - 1) (-XInt.posinf)
          (-alpha) le_rfl (by omega) (by omega),
        ih hrest]
  have hch : ∀ p ∈ order_moves (legal_moves t), (p.2.height : Int) ≤ D - 1 := by
    intro p hp
    have h1 : p.2.height ≤ heightL (legal_moves t) :=
      height_le_heightL ((order_moves_perm (legal_moves t)).mem_iff.1 hp)
    have h2 : t.height = 1 + heightL t.children := by
      cases t
      rw [GTree.height]
      rfl
    have h3 : legal_moves t = t.children := rfl
    rw [h3] at h1
    omega
  rw [hroot (order_moves (legal_moves t)) hch]

theorem foldr_max_perm {l1 l2 : List XInt} (h : List.Perm l1 l2) (i : XInt) :
    l1.foldr max i = l2.foldr max i := by
  induction h with
  | nil => rfl
  | cons x _ ih => rw [List.foldr_cons, List.foldr_cons, ih]
  | swap x y l => simp only [List.foldr_cons, max_left_comm]
  | trans _ _ ih1 ih2 => rw [ih1, ih2]

theorem foldr_min_perm {l1 l2 : List XInt} (h : List.Perm l1 l2) (i : XInt) :
    l1.foldr min i = l2.foldr min i := by
  induction h with
  | nil => rfl
  | cons x _ ih => rw [List.foldr_cons, List.foldr_cons, ih]
  | swap x y l => simp only [List.foldr_cons, min_left_comm]
  | trans _ _ ih1 ih2 => rw [ih1, ih2]

theorem spec_root_max_eq_foldr (ms : List (MoveData × GTree)) (depth : Int) :
    spec_root_max ms depth =
      (ms.map (fun m => -spec_negamax m.2 depth)).foldr max XInt.neginf := by
  induction ms with
  | nil => rfl
  | cons m rest ih => rw [spec_root_max, List.map_cons, List.foldr_cons, ih]

theorem neg_spec_root_max (ms : List (MoveData × GTree)) (depth : Int) :
    -(spec_root_max ms depth) =
      (ms.map (fun m => spec_negamax m.2 depth)).foldr min XInt.posinf := by
  induction ms with
  | nil => rfl
  | cons m rest ih =>
    rw [spec_root_max, List.map_cons, List.foldr_cons, XInt.negx_max,
      XInt.negx_negx, ih]

theorem foldr_max_le (L : List ((MoveData × GTree) × XInt)) (c : XInt)
    (h : ∀ q ∈ L, q.2 ≤ c) :
    (L.map (·.2)).foldr max XInt.neginf ≤ c := by
  induction L with
  | nil => simp
  | cons q L ih =>
    rw [List.map_cons, List.foldr_cons]
    exact max_le (h q (List.mem_cons_self q L))
      (ih (fun r hr => h r (List.mem_cons_of_mem q hr)))

theorem foldr_max_sorted_cons (p : (MoveData × GTree) × XInt)
    (L : List ((MoveData × GTree) × XInt)) (hs : ∀ q ∈ L, q.2 ≤ p.2) :
    ((p :: L).map (·.2)).foldr max XInt.neginf = p.2 := by
  rw [List.map_cons, List.foldr_cons]
  exact max_eq_left (foldr_max_le L p.2 hs)

/-- Taking a prefix of length at least 1 of a descending-sorted list does
not change the maximum of the scores: it is the head's score either way. -/
theorem foldr_max_take_sorted (pairs : List ((MoveData × GTree) × XInt))
    (k : Nat) (hk : 1 ≤ k) (hne : pairs ≠ []) :
    (((pairs.insertionSort scoreGE).take k).map (·.2)).foldr max XInt.neginf =
      (pairs.map (·.2)).foldr max XInt.neginf := by
  have hperm := List.perm_insertionSort scoreGE pairs
  have hsort := List.sorted_insertionSort scoreGE pairs
  rcases hA : pairs.insertionSort scoreGE with _ | ⟨p, L⟩
  · rw [hA] at hperm
    exact absurd (List.Perm.eq_nil hperm.symm) hne
  · rw [hA] at hperm hsort
    have hhead : ∀ q ∈ L, q.2 ≤ p.2 := by
      intro q hq
      exact (List.sorted_cons.1 hsort).1 q hq
    have htake : (p :: L).take k = p :: L.take (k - 1) := by
      cases k with
      | zero => omega
      | succ k' => rw [List.take_succ_cons, Nat.add_sub_cancel]
    rw [htake, foldr_max_sorted_cons p _ (fun q hq => hhead q (List.mem_of_mem_take hq)),
      ← foldr_max_perm (hperm.map (·.2)) XInt.neginf,
      foldr_max_sorted_cons p L hhead]

/-- Taking everything of the sorted list leaves the minimum unchanged. -/
theorem foldr_min_take_all (pairs : List ((MoveData × GTree) × XInt)) :
    (((pairs.insertionSort scoreGE).take pairs.length).map (·.2)).foldr min
        XInt.posinf =
      (pairs.map (·.2)).foldr min XInt.posinf := by
  have hperm := List.perm_insertionSort scoreGE pairs
  rw [← List.length_insertionSort scoreGE pairs, List.take_length]
  exact foldr_min_perm (hperm.map (·.2)) XInt.posinf

/-- A chess piece as `board.piece_at` returns it: a color (`true` = White)
and a kind. -/
structure Piece where
  color : Bool
  kind : PieceKind
deriving DecidableEq, Repr

/-- The concrete board model the evaluator reads through the Board
Authority: the occupant of each of the 64 squares (square 0 = a1, 63 = h8,
as in the `chess` library), the side to move, the terminal-status queries,
and `board.legal_moves.count()` as a function of the (possibly transiently
overridden) side to move — overriding `board.turn` changes which side's
legal moves are counted, which is all the mobility term uses. -/
structure EvalBoard where
  pieceAt : Fin 64 → Option Piece
  turn : Bool
  is_checkmate : Bool
  is_stalemate : Bool
  is_insufficient_material : Bool
  movesCount : Bool → Nat

/-- `chess.square_file(sq) = sq & 7`. -/
def square_file (sq : Fin 64) : Nat := sq.val % 8

/-- `chess.square_mirror(sq) = sq ^ 0x38` (flip the rank). -/
def square_mirror (sq : Fin 64) : Fin 64 :=
  ⟨sq.val ^^^ 56, Nat.xor_lt_two_pow (n := 6) sq.isLt (by omega)⟩

/-- `board.pieces(piece_type, color)`: the squares holding that piece, in
ascending square order (the iteration order of a `chess.SquareSet`). -/
def pieces (board : EvalBoard) (kind : PieceKind) (color : Bool) :
    List (Fin 64) :=
  (List.finRange 64).filter (fun sq => board.pieceAt sq = some ⟨color, kind⟩)

/-- `board.king(color)`: the square of that color's king, if any (the
`chess` library returns the single king square or `None`). -/
def king (board : EvalBoard) (color : Bool) : Option (Fin 64) :=
  (List.finRange 64).find? (fun sq => board.pieceAt sq = some ⟨color, .king⟩)

/-- `PositionEvaluator.PAWN_TABLE`. -/
def PAWN_TABLE : List Int :=
  [0,  0,  0,  0,  0,  0,  0,  0,
   50, 50, 50, 50, 50, 50, 50, 50,
   10, 10, 20, 30, 30, 20, 10, 10,
   5,  5, 10, 25, 25, 10,  5,  5,
   0,  0,  0, 20, 20,  0,  0,  0,
   5, -5,-10,  0,  0,-10, -5,  5,
   5, 10, 10,-20,-20, 10, 10,  5,
   0,  0,  0,  0,  0,  0,  0,  0]

/-- `PositionEvaluator.KNIGHT_TABLE`. -/
def KNIGHT_TABLE : List Int :=
  [-50,-40,-30,-30,-30,-30,-40,-50,
   -40,-20,  0,  0,  0,  0,-20,-40,
   -30,  0, 10, 15, 15, 10,  0,-30,
   -30,  5, 15, 20, 20, 15,  5,-30,
   -30,  0, 15, 20, 20, 15,  0,-30,
   -30,  5, 10, 15, 15, 10,  5,-30,
   -40,-20,  0,  5,  5,  0,-20,-40,
   -50,-40,-30,-30,-30,-30,-40,-50]

/-- `PositionEvaluator.BISHOP_TABLE`. -/
def BISHOP_TABLE : List Int :=
  [-20,-10,-10,-10,-10,-10,-10,-20,
   -10,  0,  0,  0,  0,  0,  0,-10,
   -10,  0,  5, 10, 10,  5,  0,-10,
   -10,  5,  5, 10, 10,  5,  5,-10,
   -10,  0, 10, 10, 10, 10,  0,-10,
   -10, 10, 10, 10, 10, 10, 10,-10,
   -10,  5,  0,  0,  0,  0,  5,-10,
   -20,-10,-10,-10,-10,-10,-10,-20]

/-- `PositionEvaluator.ROOK_TABLE`. -/
def ROOK_TABLE : List Int :=
  [0,  0,  0,  0,  0,  0,  0,  0,
   5, 10, 10, 10, 10, 10, 10,  5,
   -5,  0,  0,  0,  0,  0,  0, -5,
   -5,  0,  0,  0,  0,  0,  0, -5,
   -5,  0,  0,  0,  0,  0,  0, -5,
   -5,  0,  0,  0,  0,  0,  0, -5,
   -5,  0,  0,  0,  0,  0,  0, -5,
   0,  0,  0,  5,  5,  0,  0,  0]

/-- `PositionEvaluator.QUEEN_TABLE`. -/
def QUEEN_TABLE : List Int :=
  [-20,-10,-10, -5, -5,-10,-10,-20,
   -10,  0,  0,  0,  0,  0,  0,-10,
   -10,  0,  5,  5,  5,  5,  0,-10,
   -5,  0,  5,  5,  5,  5,  0, -5,
   0,  0,  5,  5,  5,  5,  0, -5,
   -10,  5,  5,  5,  5,  5,  0,-10,
   -10,  0,  5,  0,  0,  0,  0,-10,
   -20,-10,-10, -5, -5,-10,-10,-20]

/-- `PositionEvaluator.KING_MIDDLE_TABLE`. -/
def KING_MIDDLE_TABLE : List Int :=
  [-30,-40,-40,-50,-50,-40,-40,-30,
   -30,-40,-40,-50,-50,-40,-40,-30,
   -30,-40,-40,-50,-50,-40,-40,-30,
   -30,-40,-40,-50,-50,-40,-40,-30,
   -20,-30,-30,-40,-40,-30,-30,-20,
   -10,-20,-20,-20,-20,-20,-20,-10,
   20, 20,  0,  0,  0,  0, 20, 20,
   20, 30, 10,  0,  0, 10, 30, 20]

/-- `PositionEvaluator.KING_END_TABLE`. -/
def KING_END_TABLE : List Int :=
  [-50,-40,-30,-20,-20,-30,-40,-50,
   -30,-20,-10,  0,  0,-10,-20,-30,
   -30,-10, 20, 30, 30, 20,-10,-30,
   -30,-10, 30, 40, 40, 30,-10,-30,
   -30,-10, 30, 40, 40, 30,-10,-30,
   -30,-10, 20, 30, 30, 20,-10,-30,
   -30,-30,  0,  0,  0,  0,-30,-30,
   -50,-30,-30,-30,-30,-30,-30,-50]

/-- `self.position_tables` built in `PositionEvaluator.__init__`. -/
def position_tables : PieceKind → List Int
  | .pawn => PAWN_TABLE
  | .knight => KNIGHT_TABLE
  | .bishop => BISHOP_TABLE
  | .rook => ROOK_TABLE
  | .queen => QUEEN_TABLE
  | .king => KING_MIDDLE_TABLE

/-- `PositionEvaluator._is_endgame`. -/
def is_endgame (board : EvalBoard) : Bool :=
  let queens := (pieces board .queen true).length + (pieces board .queen false).length
  let minor_pieces := (pieces board .knight true).length +
    (pieces board .bishop true).length +
    (pieces board .knight false).length +
    (pieces board .bishop false).length
  queens = 0 || (queens = 2 && minor_pieces ≤ 2)

/-- `PositionEvaluator._evaluate_material`. -/
def evaluate_material (board : EvalBoard) : Int :=
  ([PieceKind.pawn, .knight, .bishop, .rook, .queen].map (fun piece_type =>
    ((pieces board piece_type true).length : Int) * PIECE_VALUES piece_type -
      ((pieces board piece_type false).length : Int) * PIECE_VALUES piece_type)).sum

/-- `PositionEvaluator._evaluate_piece_positioning`: iterate over
`chess.SQUARES`, look up the piece's table (mirrored for Black), add for
White and subtract for Black. -/
def evaluate_piece_positioning (board : EvalBoard) : Int :=
  ((List.finRange 64).map (fun square =>
    match board.pieceAt square with
    | none => 0
    | some piece =>
      let table := if piece.kind = .king then
          (if is_endgame board then KING_END_TABLE else KING_MIDDLE_TABLE)
        else position_tables piece.kind
      let table_square := if piece.color then square else square_mirror square
      let position_value := table.getD table_square.val 0
      if piece.color then position_value else -position_value)).sum

/-- `PositionEvaluator._evaluate_mobility`: transiently override the side
to move for the two legal-move counts, then restore it; the returned pair
is (the term's value, the board as the call leaves it). -/
def evaluate_mobility (board : EvalBoard) : Int × EvalBoard :=
  let original_turn := board.turn
  let b1 := { board with turn := true }
  let white_mobility : Int := b1.movesCount b1.turn
  let b2 := { b1 with turn := false }
  let black_mobility : Int := b2.movesCount b2.turn
  let b3 := { b2 with turn := original_turn }
  ((white_mobility - black_mobility) * 10, b3)

/-- `PositionEvaluator._evaluate_pawn_structure`. -/
def evaluate_pawn_structure (board : EvalBoard) : Int :=
  let white_pawns := pieces board .pawn true
  let black_pawns := pieces board .pawn false
  let doubled : Int := ((List.range 8).map (fun file =>
    let white_file_pawns := (white_pawns.filter
      (fun sq => square_file sq = file)).length
    let black_file_pawns := (black_pawns.filter
      (fun sq => square_file sq = file)).length
    (if white_file_pawns > 1 then -(10 * ((white_file_pawns : Int) - 1)) else 0) +
      (if black_file_pawns > 1 then 10 * ((black_file_pawns : Int) - 1) else 0))).sum
  let white_isolated : Int := (white_pawns.map (fun pawn_square =>
    let file := square_file pawn_square
    if file > 0 then
      if ¬ (white_pawns.any (fun sq => square_file sq = file - 1)) then
        if file < 7 then
          if ¬ (white_pawns.any (fun sq => square_file sq = file + 1)) then
            (-15 : Int)
          else 0
        else 0
      else 0
    else 0)).sum
  let black_isolated : Int := (black_pawns.map (fun pawn_square =>
    let file := square_file pawn_square
    if file > 0 then
      if ¬ (black_pawns.any (fun sq => square_file sq = file - 1)) then
        if file < 7 then
          if ¬ (black_pawns.any (fun sq => square_file sq = file + 1)) then
            (15 : Int)
          else 0
        else 0
      else 0
    else 0)).sum
  doubled + white_isolated + black_isolated

/-- The per-king contribution of `_evaluate_king_safety`.  The Python
guard is `if white_king_sq:` on an `Optional[int]` — `None` *and the
integer 0* are falsy, so a king standing on square 0 (a1) is treated like
a missing king and contributes nothing. -/
def kingSafetyTerm (king_sq : Option (Fin 64)) : Int :=
  match king_sq with
  | none => 0
  | some sq =>
    if sq.val = 0 then 0
    else if square_file sq < 3 ∨ square_file sq > 4 then 20 else 0

/-- `PositionEvaluator._evaluate_king_safety`: `+` the White term, `-` the
Black term. -/
def evaluate_king_safety (board : EvalBoard) : Int :=
  kingSafetyTerm (king board true) - kingSafetyTerm (king board false)

/-- `PositionEvaluator.evaluate_position`. -/
def evaluate_position (board : EvalBoard) : Int :=
  if board.is_checkmate then (if board.turn then -20000 else 20000)
  else if board.is_stalemate || board.is_insufficient_material then 0
  else
    evaluate_material board + evaluate_piece_positioning board +
      (evaluate_mobility board).1 + evaluate_pawn_structure board +
      evaluate_king_safety board

/-! Concrete fixtures used by the witnesses and counterexamples below. -/

/-- A quiet move datum: not a capture, no promotion. -/
def mdQuiet : MoveData := ⟨false, none, none, none⟩

/-- A game-over leaf position with the given evaluation and side to move. -/
def leafPos (e : Int) (tn : Bool) : GTree := .node e tn true false []

/-- Black to move, two legal moves, leading to game-over positions of
evaluation `-3` and `-5`. -/
def TC1 : GTree :=
  .node 0 false false false
    [(mdQuiet, leafPos (-3) true), (mdQuiet, leafPos (-5) true)]

/-- White to move, one legal move, leading to a game-over position of
evaluation `7`; the position itself evaluates to `5`. -/
def TC3 : GTree := .node 5 true false false [(mdQuiet, leafPos 7 false)]

/-- White to move, two legal moves, both leading to game-over positions. -/
def TC4 : GTree :=
  .node 0 true false false
    [(mdQuiet, leafPos 1 false), (mdQuiet, leafPos 2 false)]

/-- A game-over position with no legal moves. -/
def TLeaf : GTree := leafPos 0 true

/-- C2: after `findBestMove` or `analyzePosition` (and after every internal
`_negamax` call and every `_order_moves` key computation), the board state
is identical to the state before the call — every push is matched by a pop
on every exit path, including beta-cutoff breaks and the speculative
push/pop inside move ordering — and the mobility term of the evaluator
restores the original side to move after its dual legal-move count. -/
theorem C2_board_restoration :
    (∀ (b : Board) (nodes : Nat) (depth : Int) (alpha beta : XInt),
      (negamaxS b nodes depth alpha beta).2.2 = b) ∧
    (∀ (b : Board) (nodes : Nat) (depth : Int),
      (find_best_moveS b nodes depth).2.2.2 = b) ∧
    (∀ (b : Board) (nodes : Nat) (engine_depth : Int) (num_top_moves : Nat),
      (analyze_positionS b nodes engine_depth num_top_moves).2.2 = b) ∧
    (∀ (b : Board) (moves : List (MoveData × GTree)),
      (order_movesS b moves).2 = b) ∧
    (∀ (board : EvalBoard), (evaluate_mobility board).2 = board) := by
  refine ⟨?_, ?_, ?_, ?_, ?_⟩
  · intro b nodes depth alpha beta
    rw [negamaxS_bridge]
  · intro b nodes depth
    rw [find_best_moveS_bridge]
  · intro b nodes engine_depth num_top_moves
    rw [analyze_positionS_bridge]
  · intro b moves
    rw [order_movesS_eq]
  · intro board
    cases board
    rfl

/-- C9: with no legal moves, `find_best_move` returns an absent best move
rather than failing, and `analyze_position` returns an empty list, for
every depth, every `num_top_moves` and every incoming node counter. -/
theorem C9_no_legal_moves (b : Board) (nodes : Nat) (depth : Int)
    (num_top_moves : Nat) (h : legal_moves b.cur = []) :
    (find_best_moveS b nodes depth).1 = none ∧
    (analyze_positionS b nodes depth num_top_moves).1 = [] := by
  constructor
  · rw [find_best_moveS_bridge, find_best_moveP_def, h]
    rfl
  · rw [analyze_positionS_bridge]
    simp [analyze_positionP, h]

theorem C9_witness :
    (find_best_moveS (Board.mk TLeaf []) 0 3).1 = none ∧
    (analyze_positionS (Board.mk TLeaf []) 0 3 5).1 = [] :=
  C9_no_legal_moves (Board.mk TLeaf []) 0 3 5 rfl

/-- C10: with at least one legal move and depth at least 1 (for any depth,
in fact), `find_best_move` returns a present move and that move is one of
the Board Authority's legal moves: each root child's negamax value is
finite (a non-game-over node has at least one legal move, a terminal or
depth-0 node returns a finite evaluation), so the first ordered root move
already beats the `-inf` sentinel. -/
theorem C10_best_move_present (b : Board) (nodes : Nat) (depth : Int)
    (hwf : WFb b.cur = true) (hne : legal_moves b.cur ≠ []) (hd : 1 ≤ depth) :
    ∃ p, (find_best_moveS b nodes depth).1 = some p ∧ p ∈ legal_moves b.cur := by
  rw [find_best_moveS_bridge]
  exact find_best_moveP_some b.cur depth hwf hne

theorem C10_witness :
    ∃ p, (find_best_moveS (Board.mk TC4 []) 0 1).1 = some p ∧
      p ∈ legal_moves (Board.mk TC4 []).cur :=
  C10_best_move_present (Board.mk TC4 []) 0 1
    (by simp [TC4, WFb, WFl, leafPos]) (by simp [TC4, legal_moves]) (by omega)

/-- C1 (amended): for a position with at least one legal move and depth at
least 1, the score reported by `find_best_move` equals the maximum over
legal root moves of the negated unpruned full-window negamax value of the
resulting position at `depth - 1`, converted to the White-positive global
convention — alpha-beta pruning changes only which nodes are visited,
never the returned score.  When White is to move this also equals the
maximum score of `analyze_position`'s list (for any `topN ≥ 1`), but when
Black is to move it equals the *minimum* of `analyze_position`'s scores
over all legal moves: `analyze_position` sorts its list by White-positive
score descending, so with Black to move it lists the best move last. -/
theorem C1_pruning_equals_unpruned (b : Board) (n1 n2 : Nat) (depth : Int)
    (topN : Nat) (hwf : WFb b.cur = true) (hne : legal_moves b.cur ≠ [])
    (hd : 1 ≤ depth) (htop : 1 ≤ topN) :
    ((find_best_moveS b n1 depth).2.1 =
      XInt.mulInt (spec_root_max (legal_moves b.cur) (depth - 1))
        (colorMult b.cur.turn)) ∧
    (b.cur.turn = true →
      ((analyze_positionS b n2 depth topN).1.map (·.2)).foldr max XInt.neginf =
        (find_best_moveS b n1 depth).2.1) ∧
    (b.cur.turn = false →
      ((analyze_positionS b n2 depth
          ((legal_moves b.cur).length)).1.map (·.2)).foldr min XInt.posinf =
        (find_best_moveS b n1 depth).2.1) := by
  have hscore : (find_best_moveS b n1 depth).2.1 =
      XInt.mulInt (spec_root_max (legal_moves b.cur) (depth - 1))
        (colorMult b.cur.turn) := by
    rw [find_best_moveS_bridge]
    exact find_best_moveP_score b.cur depth hwf
  have hem : (legal_moves b.cur).isEmpty = false := by
    cases hlm : (legal_moves b.cur) with
    | nil => exact absurd hlm hne
    | cons m rest => rfl
  have hpairs : ∀ k, (analyze_positionS b n2 depth k).1 =
      (((legal_moves b.cur).map (fun m =>
        (m, XInt.mulInt (-(spec_negamax m.2 (depth - 1)))
          (colorMult b.cur.turn)))).insertionSort scoreGE).take k := by
    intro k
    rw [analyze_positionS_bridge]
    simp only [analyze_positionP, hem, Bool.false_eq_true, if_false,
      negamaxP_full]
  have hpne : ((legal_moves b.cur).map (fun m =>
      (m, XInt.mulInt (-(spec_negamax m.2 (depth - 1)))
        (colorMult b.cur.turn)))) ≠ [] := by
    intro hnil
    exact hne (List.map_eq_nil_iff.1 hnil)
  refine ⟨hscore, ?_, ?_⟩
  · intro hturn
    rw [hscore, hpairs topN,
      foldr_max_take_sorted _ topN htop hpne, List.map_map, hturn]
    simp only [colorMult, eq_self_iff_true, if_true, Function.comp,
      XInt.mulInt_one]
    rw [spec_root_max_eq_foldr]
    rfl
  · intro hturn
    have hlen2 : (legal_moves b.cur).length =
        ((legal_moves b.cur).map (fun m =>
          (m, XInt.mulInt (-(spec_negamax m.2 (depth - 1)))
            (colorMult b.cur.turn)))).length := by
      rw [List.length_map]
    rw [hscore, hpairs ((legal_moves b.cur).length), hlen2,
      foldr_min_take_all, List.map_map, hturn]
    simp only [colorMult, Bool.false_eq_true, if_false, Function.comp,
      XInt.mulInt_negOne, XInt.negx_negx]
    rw [neg_spec_root_max]
    rfl

/-- C1 fails as stated: with Black to move (TC1), `find_best_move` at the
engine depth reports `-5` (the global score of Black's best move), while
the maximum score in `analyze_position`'s list for the same position and
depth is `-3` — the two halves of the claim disagree for Black. -/
theorem C1_counterexample :
    (find_best_moveS (Board.mk TC1 []) 0 1).2.1 = XInt.fin (-5) ∧
    ((analyze_positionS (Board.mk TC1 []) 0 1 5).1.map (·.2)).foldr max
        XInt.neginf = XInt.fin (-3) ∧
    XInt.fin (-5) ≠ XInt.fin (-3) := by
  refine ⟨?_, ?_, by decide⟩
  · rw [find_best_moveS_bridge]
    simp [find_best_moveP_def, rootLoopP, negamaxP, order_moves, legal_moves,
      TC1, leafPos, mdQuiet, move_priority, colorMult, XInt.mulInt]
  · rw [analyze_positionS_bridge]
    simp [analyze_positionP, negamaxP, legal_moves, TC1, leafPos, mdQuiet,
      colorMult, XInt.mulInt, scoreGE]

theorem C1_witness :
    (find_best_moveS (Board.mk TC1 []) 0 1).2.1 =
      XInt.mulInt (spec_root_max (legal_moves TC1) (1 - 1)) (colorMult TC1.turn) :=
  (C1_pruning_equals_unpruned (Board.mk TC1 []) 0 0 1 5
    (by simp [TC1, WFb, WFl, leafPos]) (by simp [TC1, legal_moves])
    (by omega) (by omega)).1

/-- C3 fails as stated: at depth 0 the reported score is not the static
evaluation of the position.  On TC3 (static evaluation 5, one legal move
to a game-over position of evaluation 7), `find_best_move` at depth 0
reports 7: the root loop still runs, and `_negamax` at depth `-1` never
meets the `depth == 0` base case. -/
theorem C3_counterexample :
    (find_best_moveS (Board.mk TC3 []) 0 0).2.1 = XInt.fin 7 ∧
    TC3.ev = 5 ∧ XInt.fin 7 ≠ XInt.fin 5 := by
  refine ⟨?_, rfl, by decide⟩
  rw [find_best_moveS_bridge]
  simp [find_best_moveP_def, rootLoopP, negamaxP, order_moves, legal_moves,
    TC3, leafPos, mdQuiet, move_priority, colorMult, XInt.mulInt]

/-- C3 (amended): depth 0 does not degenerate to static evaluation;
instead each root move is searched by `_negamax` at depth `-1`, which
never satisfies the `depth == 0` base case and stops only at game-over
positions, so `find_best_move` at depth 0 returns exactly the result of
an exhaustive search: the same result as at any depth at least the height
of the game tree. -/
theorem C3_depth0_exhaustive (b : Board) (nodes : Nat) (D : Int)
    (hD : (b.cur.height : Int) ≤ D) :
    find_best_moveS b nodes 0 = find_best_moveS b nodes D := by
  rw [find_best_moveS_bridge, find_best_moveS_bridge,
    find_best_moveP_depth0 b.cur D hD]

theorem C3_witness :
    find_best_moveS (Board.mk TC3 []) 0 0 = find_best_moveS (Board.mk TC3 []) 0 2 :=
  C3_depth0_exhaustive (Board.mk TC3 []) 0 2
    (by simp [TC3, GTree.height, heightL, leafPos])

/-- C4 fails as stated: (i) at depth 0, `find_best_move` does not report 1
node — on TC4 (two legal moves to game-over positions) it reports 2; and
(ii) `analyze_position` does not reset the counter — starting it at 7
yields 9, starting it at 0 yields 2. -/
theorem C4_counterexample :
    (find_best_moveS (Board.mk TC4 []) 0 0).2.2.1 = 2 ∧ (2 : Nat) ≠ 1 ∧
    (analyze_positionS (Board.mk TC4 []) 7 1 5).2.1 = 9 ∧
    (analyze_positionS (Board.mk TC4 []) 0 1 5).2.1 = 2 ∧ (9 : Nat) ≠ 2 := by
  refine ⟨?_, by decide, ?_, ?_, by decide⟩
  · rw [find_best_moveS_bridge]
    simp [find_best_moveP_def, rootLoopP, negamaxP, order_moves, legal_moves,
      TC4, leafPos, mdQuiet, move_priority, colorMult, XInt.mulInt]
  · rw [analyze_positionS_bridge]
    simp [analyzeCountP, negamaxP, legal_moves, TC4, leafPos, mdQuiet]
  · rw [analyze_positionS_bridge]
    simp [analyzeCountP, negamaxP, legal_moves, TC4, leafPos, mdQuiet]

/-- C4 (amended): `find_best_move` resets the node counter (its result
does not depend on the incoming counter value), but `analyze_position`
does not reset it — it adds its node visits onto the incoming value.
After `find_best_move` the counter is at least the number of legal moves
(for every depth, including 0, where the claim's "equals 1" fails), hence
strictly positive whenever depth ≥ 1 and a legal move exists, and 0 when
no legal move exists. -/
theorem C4_node_counter :
    (∀ (b : Board) (nodes : Nat) (depth : Int),
      find_best_moveS b nodes depth = find_best_moveS b 0 depth) ∧
    (∀ (b : Board) (nodes : Nat) (engine_depth : Int) (num_top_moves : Nat),
      (analyze_positionS b nodes engine_depth num_top_moves).2.1 =
        nodes + (analyze_positionS b 0 engine_depth num_top_moves).2.1) ∧
    (∀ (b : Board) (nodes : Nat) (depth : Int),
      (legal_moves b.cur).length ≤ (find_best_moveS b nodes depth).2.2.1) ∧
    (∀ (b : Board) (nodes : Nat) (depth : Int), 1 ≤ depth →
      legal_moves b.cur ≠ [] → 0 < (find_best_moveS b nodes depth).2.2.1) ∧
    (∀ (b : Board) (nodes : Nat) (depth : Int),
      legal_moves b.cur = [] → (find_best_moveS b nodes depth).2.2.1 = 0) := by
  have key : ∀ (b : Board) (nodes : Nat) (depth : Int),
      (legal_moves b.cur).length ≤ (find_best_moveS b nodes depth).2.2.1 := by
    intro b nodes depth
    have hcount := rootLoopP_count_ge (order_moves (legal_moves b.cur)) depth
      XInt.neginf XInt.posinf none XInt.neginf 0
    have hlen : (order_moves (legal_moves b.cur)).length =
        (legal_moves b.cur).length := by
      rw [order_moves, List.length_insertionSort]
    rw [find_best_moveS_bridge, find_best_moveP_def]
    show (legal_moves b.cur).length ≤
      (rootLoopP (order_moves (legal_moves b.cur)) depth XInt.neginf
        XInt.posinf none XInt.neginf 0).2.2
    omega
  refine ⟨?_, ?_, key, ?_, ?_⟩
  · intro b nodes depth
    rfl
  · intro b nodes engine_depth num_top_moves
    rw [analyze_positionS_bridge, analyze_positionS_bridge]
    show nodes + analyzeCountP (legal_moves b.cur) (engine_depth - 1) =
      nodes + (0 + analyzeCountP (legal_moves b.cur) (engine_depth - 1))
    omega
  · intro b nodes depth _ hne
    have h1 : 0 < (legal_moves b.cur).length := List.length_pos.2 hne
    have h2 := key b nodes depth
    omega
  · intro b nodes depth h
    rw [find_best_moveS_bridge, find_best_moveP_def, h]
    rfl

theorem C4_witness :
    0 < (find_best_moveS (Board.mk TC4 []) 5 1).2.2.1 ∧
    (find_best_moveS (Board.mk TLeaf []) 5 1).2.2.1 = 0 :=
  ⟨C4_node_counter.2.2.2.1 (Board.mk TC4 []) 5 1 (by omega)
      (by simp [TC4, legal_moves]),
    C4_node_counter.2.2.2.2 (Board.mk TLeaf []) 5 1 rfl⟩

/-- An en-passant capture as the Board Authority reports it:
`board.is_capture(move)` is `True`, but `board.piece_at(move.to_square)`
is `None` — the captured pawn stands beside the target square, not on it;
the moving piece is the capturing pawn. -/
def mdEnPassant : MoveData := ⟨true, none, some .pawn, none⟩

/-- C5 fails as stated: on an en-passant capture the Board Authority
reports the move as a capture, and the captured piece is a pawn (value
100), so the claim prescribes a priority of `10 * 100 - 100 = 900`; but
`piece_at(move.to_square)` is `None`, the guard
`if captured_piece and moving_piece:` skips the capture bonus, and the
code's priority is 0. -/
theorem C5_counterexample :
    mdEnPassant.isCapture = true ∧
    move_priority (mdEnPassant, leafPos 0 false) = 0 ∧
    (0 : Int) ≠ 10 * PIECE_VALUES .pawn - PIECE_VALUES .pawn := by
  refine ⟨rfl, by decide, by decide⟩

/-- C5 (amended): the move-ordering priority is 0 plus, when the Board
Authority reports the move as a capture *and* both `piece_at(to_square)`
and `piece_at(from_square)` return pieces, 10 times the captured piece's
value minus the moving piece's value — an en-passant capture, whose
target square is empty, receives no capture bonus; plus the promotion
piece's value; plus 50 when the move delivers check in the position it
leads to; and `_order_moves` returns the moves sorted by this priority
descending, stably: ties keep the Board Authority's enumeration order
(the sublist at each priority value is unchanged), and the output is a
permutation of the input. -/
theorem C5_move_ordering :
    (∀ (md : MoveData) (t : GTree),
      move_priority (md, t) =
        (if md.isCapture then
          match md.capturedPiece, md.movingPiece with
          | some captured, some moving =>
              10 * PIECE_VALUES captured - PIECE_VALUES moving
          | _, _ => 0
         else 0) +
        (match md.promotion with | some p => PIECE_VALUES p | none => 0) +
        (if t.isCheck then 50 else 0)) ∧
    (∀ moves : List (MoveData × GTree),
      (order_moves moves).Sorted
        (fun a b => move_priority b ≤ move_priority a)) ∧
    (∀ (moves : List (MoveData × GTree)) (k : Int),
      (order_moves moves).filter (fun m => move_priority m = k) =
        moves.filter (fun m => move_priority m = k)) ∧
    (∀ moves : List (MoveData × GTree), List.Perm (order_moves moves) moves) := by
  refine ⟨?_, ?_, ?_, ?_⟩
  · intro md t
    obtain ⟨cap, cpt, mpt, promo⟩ := md
    rw [move_priority]
    cases cap <;> cases cpt <;> cases mpt <;> cases promo <;>
      cases ht : t.isCheck <;> simp [ht] <;> ring
  · intro moves
    exact order_moves_sorted moves
  · intro moves k
    exact order_moves_stable moves k
  · intro moves
    exact order_moves_perm moves

/-- The board exposing the king-safety slip: White king on a1 (square 0),
Black king on e8 (square 60), nothing else. -/
def C6board : EvalBoard where
  pieceAt := fun sq =>
    if sq.val = 0 then some ⟨true, .king⟩
    else if sq.val = 60 then some ⟨false, .king⟩
    else none
  turn := true
  is_checkmate := false
  is_stalemate := false
  is_insufficient_material := false
  movesCount := fun _ => 0

/-- C6 names a code bug: both kings are on the board and White's king is
on file 0 (outside the central files), so the claim demands a `+20`
contribution; but the Python guard `if white_king_sq:` treats the integer
square 0 (a1) as falsy, skipping the White term, and the Black king is on
the central file 4, so the code's king-safety term is 0, not 20. -/
theorem C6_king_safety_truthiness :
    king C6board true = some (0 : Fin 64) ∧
    king C6board false = some (60 : Fin 64) ∧
    square_file (0 : Fin 64) < 3 ∧
    evaluate_king_safety C6board = 0 := by
  refine ⟨by decide, by decide, by decide, by decide⟩

/-- C7: `evaluate_position` returns `-20000` when the side to move is
White and checkmated, `+20000` when it is Black and checkmated; otherwise
stalemate or insufficient material returns 0; in both terminal cases the
five heuristic terms are suppressed entirely. -/
theorem C7_terminal_precedence (board : EvalBoard) :
    (board.is_checkmate = true →
      evaluate_position board = (if board.turn then -20000 else 20000)) ∧
    (board.is_checkmate = false →
      board.is_stalemate = true ∨ board.is_insufficient_material = true →
      evaluate_position board = 0) := by
  constructor
  · intro h
    rw [evaluate_position, if_pos (by rw [h])]
  · intro h1 h2
    rw [evaluate_position, if_neg (by rw [h1]; exact Bool.false_ne_true),
      if_pos ?_]
    rcases h2 with h | h
    · rw [h, Bool.true_or]
    · rw [h, Bool.or_true]

/-- A checkmate position (side to move White) and a stalemate position. -/
def C7mate : EvalBoard where
  pieceAt := fun _ => none
  turn := true
  is_checkmate := true
  is_stalemate := false
  is_insufficient_material := false
  movesCount := fun _ => 0

def C7stale : EvalBoard where
  pieceAt := fun _ => none
  turn := false
  is_checkmate := false
  is_stalemate := true
  is_insufficient_material := false
  movesCount := fun _ => 0

theorem C7_witness :
    evaluate_position C7mate = -20000 ∧ evaluate_position C7stale = 0 := by
  constructor
  · have h := (C7_terminal_precedence C7mate).1 rfl
    simpa using h
  · exact (C7_terminal_precedence C7stale).2 rfl (Or.inl rfl)

theorem sum_map_add_int {α : Type} (l : List α) (f g : α → Int) :
    (l.map (fun x => f x + g x)).sum = (l.map f).sum + (l.map g).sum := by
  induction l with
  | nil => simp
  | cons a l ih =>
    simp only [List.map_cons, List.sum_cons, ih]
    ring

theorem sum_map_neg_int {α : Type} (l : List α) (f : α → Int) :
    (l.map (fun x => -(f x))).sum = -((l.map f).sum) := by
  induction l with
  | nil => simp
  | cons a l ih =>
    simp only [List.map_cons, List.sum_cons, ih]
    ring

theorem sum_map_mul_left_int {α : Type} (l : List α) (c : Int) (f : α → Int) :
    (l.map (fun x => c * f x)).sum = c * (l.map f).sum := by
  induction l with
  | nil => simp
  | cons a l ih =>
    simp only [List.map_cons, List.sum_cons, ih]
    ring

theorem sum_ite_eq_count (ps : List (Fin 64)) (p : Fin 64 → Prop)
    [DecidablePred p] (v : Int) :
    (ps.map (fun sq => if p sq then v else 0)).sum =
      v * ((ps.countP (fun sq => decide (p sq)) : Nat) : Int) := by
  induction ps with
  | nil => simp
  | cons q ps ih =>
    rw [List.map_cons, List.sum_cons, List.countP_cons, ih]
    by_cases h : p q
    all_goals simp [h]
    all_goals push_cast
    all_goals ring

/-- The per-file doubled-pawn penalty for White, in the claim's form:
10 points per pawn beyond the first, subtracted. -/
theorem doubled_white_term (ps : List (Fin 64)) (file : Nat) :
    (if (ps.filter (fun sq => square_file sq = file)).length > 1 then
       -(10 * (((ps.filter (fun sq => square_file sq = file)).length : Int) - 1))
     else 0) =
    -(10 * max (((ps.countP (fun sq => square_file sq = file) : Nat) : Int) - 1) 0) := by
  rw [List.countP_eq_length_filter]
  by_cases h : (ps.filter (fun sq => square_file sq = file)).length > 1
  · rw [if_pos h, max_eq_left (by push_cast; omega)]
  · rw [if_neg h, max_eq_right (by push_cast; omega), mul_zero, neg_zero]

/-- The per-file doubled-pawn penalty for Black: added. -/
theorem doubled_black_term (ps : List (Fin 64)) (file : Nat) :
    (if (ps.filter (fun sq => square_file sq = file)).length > 1 then
       10 * (((ps.filter (fun sq => square_file sq = file)).length : Int) - 1)
     else 0) =
    10 * max (((ps.countP (fun sq => square_file sq = file) : Nat) : Int) - 1) 0 := by
  rw [List.countP_eq_length_filter]
  by_cases h : (ps.filter (fun sq => square_file sq = file)).length > 1
  · rw [if_pos h, max_eq_left (by push_cast; omega)]
  · rw [if_neg h, max_eq_right (by push_cast; omega), mul_zero]

/-- The nested isolation check of `_evaluate_pawn_structure`, rewritten as
a single condition: only files 1..6 qualify (the `file > 0` and `file < 7`
guards exclude the a-file and h-file), and both adjacent files must be
free of friendly pawns. -/
theorem isolated_pointwise (ps : List (Fin 64)) (v : Int) (sq : Fin 64) :
    (if square_file sq > 0 then
       if ¬ (ps.any (fun s2 => square_file s2 = square_file sq - 1)) then
         if square_file sq < 7 then
           if ¬ (ps.any (fun s2 => square_file s2 = square_file sq + 1)) then v
           else 0
         else 0
       else 0
     else 0) =
    (if (1 ≤ square_file sq ∧ square_file sq ≤ 6 ∧
        (∀ s2 ∈ ps, square_file s2 ≠ square_file sq - 1) ∧
        (∀ s2 ∈ ps, square_file s2 ≠ square_file sq + 1)) then v else 0) := by
  by_cases h1 : square_file sq > 0
  · by_cases h2 : ps.any (fun s2 => square_file s2 = square_file sq - 1)
    · obtain ⟨s2, hs2, heq⟩ := List.any_eq_true.1 h2
      rw [if_pos h1, if_neg (not_not_intro h2),
        if_neg (fun hc => hc.2.2.1 s2 hs2 (of_decide_eq_true heq))]
    · by_cases h3 : square_file sq < 7
      · by_cases h4 : ps.any (fun s2 => square_file s2 = square_file sq + 1)
        · obtain ⟨s2, hs2, heq⟩ := List.any_eq_true.1 h4
          rw [if_pos h1, if_pos h2, if_pos h3, if_neg (not_not_intro h4),
            if_neg (fun hc => hc.2.2.2 s2 hs2 (of_decide_eq_true heq))]
        · rw [if_pos h1, if_pos h2, if_pos h3, if_pos h4, if_pos ?_]
          refine ⟨by omega, by omega, ?_, ?_⟩
          · intro s2 hs2 heq
            exact h2 (List.any_eq_true.2 ⟨s2, hs2, decide_eq_true heq⟩)
          · intro s2 hs2 heq
            exact h4 (List.any_eq_true.2 ⟨s2, hs2, decide_eq_true heq⟩)
      · rw [if_pos h1, if_pos h2, if_neg h3, if_neg (by omega)]
  · rw [if_neg h1, if_neg (by omega)]

/-- C8: the pawn-structure term is, per file, 10 points per pawn beyond
the first (subtracted for White, added for Black), plus a 15-point penalty
with the same sign convention for each isolated pawn, where a pawn counts
as isolated exactly when its file is in 1..6 (the two `file` guards
exclude the a-file and h-file) and no friendly pawn stands on either
adjacent file. -/
theorem C8_pawn_structure (board : EvalBoard) :
    evaluate_pawn_structure board =
      -(10 * ((List.range 8).map (fun file =>
          max ((((pieces board .pawn true).countP
            (fun sq => square_file sq = file) : Nat) : Int) - 1) 0)).sum) +
      10 * ((List.range 8).map (fun file =>
          max ((((pieces board .pawn false).countP
            (fun sq => square_file sq = file) : Nat) : Int) - 1) 0)).sum +
      (-15) * (((pieces board .pawn true).countP (fun sq =>
          decide (1 ≤ square_file sq ∧ square_file sq ≤ 6 ∧
            (∀ s2 ∈ pieces board .pawn true,
              square_file s2 ≠ square_file sq - 1) ∧
            (∀ s2 ∈ pieces board .pawn true,
              square_file s2 ≠ square_file sq + 1))) : Nat) : Int) +
      15 * (((pieces board .pawn false).countP (fun sq =>
          decide (1 ≤ square_file sq ∧ square_file sq ≤ 6 ∧
            (∀ s2 ∈ pieces board .pawn false,
              square_file s2 ≠ square_file sq - 1) ∧
            (∀ s2 ∈ pieces board .pawn false,
              square_file s2 ≠ square_file sq + 1))) : Nat) : Int) := by
  show
    ((List.range 8).map (fun file =>
      (if ((pieces board .pawn true).filter
          (fun sq => square_file sq = file)).length > 1 then
        -(10 * ((((pieces board .pawn true).filter
          (fun sq => square_file sq = file)).length : Int) - 1))
      else 0) +
      (if ((pieces board .pawn false).filter
          (fun sq => square_file sq = file)).length > 1 then
        10 * ((((pieces board .pawn false).filter
          (fun sq => square_file sq = file)).length : Int) - 1)
      else 0))).sum +
    ((pieces board .pawn true).map (fun pawn_square =>
      if square_file pawn_square > 0 then
        if ¬ ((pieces board .pawn true).any
            (fun sq => square_file sq = square_file pawn_square - 1)) then
          if square_file pawn_square < 7 then
            if ¬ ((pieces board .pawn true).any
                (fun sq => square_file sq = square_file pawn_square + 1)) then
              (-15 : Int)
            else 0
          else 0
        else 0
      else 0)).sum +
    ((pieces board .pawn false).map (fun pawn_square =>
      if square_file pawn_square > 0 then
        if ¬ ((pieces board .pawn false).any
            (fun sq => square_file sq = square_file pawn_square - 1)) then
          if square_file pawn_square < 7 then
            if ¬ ((pieces board .pawn false).any
                (fun sq => square_file sq = square_file pawn_square + 1)) then
              (15 : Int)
            else 0
          else 0
        else 0
      else 0)).sum = _
  rw [sum_map_add_int]
  rw [List.map_congr_left
    (fun f _ => doubled_white_term (pieces board .pawn true) f)]
  rw [List.map_congr_left
    (fun f _ => doubled_black_term (pieces board .pawn false) f)]
  rw [sum_map_neg_int, sum_map_mul_left_int, sum_map_mul_left_int]
  rw [List.map_congr_left
    (fun sq _ => isolated_pointwise (pieces board .pawn true) (-15) sq)]
  rw [List.map_congr_left
    (fun sq _ => isolated_pointwise (pieces board .pawn false) 15 sq)]
  rw [sum_ite_eq_count, sum_ite_eq_count]
